import Mathlib

/-!
# Verified embedding of the qter core

This development embeds, in Lean 4, the parts of the qter repository that the
specification's claims are about:

* the chromatic-order helper
  `length_of_substring_that_this_string_is_n_repeated_copies_of`
  (`qter_core/src/architectures.rs`),
* the `TheoreticalState` register (`interpreter/src/puzzle_states/mod.rs`),
* the all-topological-sorts iterator
  (`cycle_combination_solver/src/all_topos.rs`),
* the decoding table's `closest_alg` query and `new_from_effect`
  (`qter_core/src/architectures.rs`),
* the `RobotState::halt`/`repeat_until` loop
  (`interpreter/src/puzzle_states/mod.rs`),
* the remote-robot client cache
  (`interpreter/src/puzzle_states/remote_robot.rs`),
* the macro expansion fixpoint loop (`compiler/src/macro_expansion.rs`,
  `compiler/src/lib.rs`, `compiler/src/builtin_macros.rs`) and the
  add-coalescing optimizer pass (`compiler/src/optimization/local.rs`).

Rust's `Int<U>` (unbounded nonnegative integers) is embedded as `Nat`, and
`Int<I>` as `Int`.  `Vec`/`VecDeque` are embedded as `List` (for the deque,
the front of the list is the front of the deque).  Code that can panic is
embedded with `Option`, `none` meaning a panic.
-/

namespace QterSpec

/-! ## The chromatic-order helper (architectures.rs)

`length_of_substring_that_this_string_is_n_repeated_copies_of` from
`qter_core/src/architectures.rs`.  The Rust loop pushes each color onto
`found` and resets `current_repeat_length` to `i + 1` whenever
`found[i % current_repeat_length] != color`; at the end it falls back to the
full length when the final repeat length does not divide it.  -/

def lengthOfSubstringAux : List String → List String → Nat → Nat → Nat
  | [], _found, _i, crl => crl
  | color :: rest, found, i, crl =>
      let found' := found ++ [color]
      let crl' := if found'.getD (i % crl) "" ≠ color then i + 1 else crl
      lengthOfSubstringAux rest found' (i + 1) crl'

def length_of_substring_that_this_string_is_n_repeated_copies_of
    (colors : List String) : Nat :=
  let crl := lengthOfSubstringAux colors [] 0 1
  if colors.length % crl ≠ 0 then colors.length else crl

/-- The property the function's own documentation and the spec describe:
`w` consists of whole repeated copies of its prefix of length `d`,
i.e. `d` divides `|w|` and `w[i] = w[i+d]` for every valid `i`. -/
def IsRepetitionLength (w : List String) (d : Nat) : Prop :=
  0 < d ∧ d ∣ w.length ∧ ∀ i < w.length - d, w.getD i "" = w.getD (i + d) ""

instance (w : List String) (d : Nat) : Decidable (IsRepetitionLength w d) := by
  unfold IsRepetitionLength; infer_instance

/-! ## TheoreticalState (interpreter/src/puzzle_states/mod.rs) -/

structure TheoreticalState where
  value : Nat
  order : Nat
  deriving DecidableEq, Repr

namespace TheoreticalState

def add_to (s : TheoreticalState) (amt : Nat) : TheoreticalState :=
  let v := s.value + amt % s.order
  { s with value := if s.order ≤ v then v - s.order else v }

/-- Modelled from the spec: the `%` operator of `puzzle_theory::numbers`
(`Int<I> % Int<U> : Int<U>`) is not under `src/`; per the spec
("All register arithmetic is mod the register's chromatic order") it is the
Euclidean remainder, which is nonnegative. -/
def imodU (a : Int) (n : Nat) : Nat := (a % (n : Int)).toNat

def add_to_i (s : TheoreticalState) (amt : Int) : TheoreticalState :=
  s.add_to (imodU amt s.order)

def zero_out (s : TheoreticalState) : TheoreticalState :=
  { s with value := 0 }

end TheoreticalState

/-- One call of the public mutating interface of `TheoreticalState`. -/
inductive TheoreticalOp where
  | addTo (amt : Nat)
  | addToI (amt : Int)
  | zeroOut
  deriving Repr

def applyTheoreticalOp (s : TheoreticalState) : TheoreticalOp → TheoreticalState
  | .addTo amt => s.add_to amt
  | .addToI amt => s.add_to_i amt
  | .zeroOut => s.zero_out

def runTheoreticalOps (s : TheoreticalState) (ops : List TheoreticalOp) :
    TheoreticalState :=
  ops.foldl applyTheoreticalOp s

/-! ## The all-topological-sorts iterator (all_topos.rs)

`AllTopologicalSorts` from `cycle_combination_solver/src/all_topos.rs`.
The deque `available` is embedded as a `List` whose head is the front of the
deque; `Vec`s (`bases`, `current`) keep their push/pop end at the end of the
list.  `new` returns `none` when the Rust constructor panics
(`assert!(!available.is_empty() || n == 0, "Cycle detected")`). -/

structure AllTopologicalSorts where
  n : Nat
  successors : List (List Nat)
  count : List Nat
  available : List Nat
  bases : List Nat
  current : List Nat
  done : Bool
  deriving DecidableEq, Repr

namespace AllTopologicalSorts

def buildSuccessors (n : Nat) (edges : List (Nat × Nat)) : List (List Nat) :=
  edges.foldl (fun s e => s.set e.1 (s.getD e.1 [] ++ [e.2]))
    (List.replicate (n + 1) [])

def buildCount (n : Nat) (edges : List (Nat × Nat)) : List Nat :=
  edges.foldl (fun c e => c.set e.2 (c.getD e.2 0 + 1))
    (List.replicate (n + 1) 0)

def new (n : Nat) (edges : List (Nat × Nat)) : Option AllTopologicalSorts :=
  let successors := buildSuccessors n edges
  let count := buildCount n edges
  let available := (List.range' 1 n).filter (fun i => count.getD i 0 = 0)
  if available.isEmpty ∧ n ≠ 0 then none
  else some
    { n, successors, count, available
      bases := [], current := [], done := false }

/-- `for &successor in &self.successors[q] { self.count[successor] += 1 }` -/
def restoreEdges (count : List Nat) (succs : List Nat) : List Nat :=
  succs.foldl (fun c t => c.set t (c.getD t 0 + 1)) count

/-- `while available.back().is_some_and(|&node| count[node] > 0) { pop_back }` -/
def popBackWhileBlocked (count : List Nat) : Nat → List Nat → List Nat
  | 0, av => av
  | fuel + 1, av =>
      match av.getLast? with
      | some node =>
          if 0 < count.getD node 0 then popBackWhileBlocked count fuel av.dropLast
          else av
      | none => av

/-- The backtracking loop of `next` (`while let Some(q) = self.current.pop()`).
Returns the updated `(count, available, bases, current)`, or `none` when the
Rust code would panic (`bases.last().unwrap()` on an empty `bases`). -/
def backtrackLoop (successors : List (List Nat)) :
    Nat → List Nat → List Nat → List Nat → List Nat →
    Option (List Nat × List Nat × List Nat × List Nat)
  | 0, count, available, bases, current => some (count, available, bases, current)
  | fuel + 1, count, available, bases, current =>
      match current.getLast? with
      | none => some (count, available, bases, current)
      | some q =>
          let current' := current.dropLast
          let count' := restoreEdges count (successors.getD q [])
          let av1 := popBackWhileBlocked count' available.length available
          let av2 := q :: av1
          match bases.getLast? with
          | none => none
          | some base =>
              if av2.getLast? = some base then
                backtrackLoop successors fuel count' av2 bases.dropLast current'
              else some (count', av2, bases, current')

/-- `for &successor in &self.successors[q]`: decrement the count and push the
successor to the back of `available` when its count reaches zero. -/
def removeEdges (count : List Nat) (available : List Nat) (succs : List Nat) :
    List Nat × List Nat :=
  succs.foldl
    (fun p t =>
      let c' := p.1.set t (p.1.getD t 0 - 1)
      if c'.getD t 0 = 0 then (c', p.2 ++ [t]) else (c', p.2))
    (count, available)

/-- The building loop of `next` (`loop { ... }`).  `none` models a panic:
either `available.pop_back().unwrap()` on an empty deque or the
`assert!(bases.len() <= n)`. -/
def buildLoop (s : AllTopologicalSorts) :
    Nat → List Nat → List Nat → List Nat → List Nat →
    Option AllTopologicalSorts
  | 0, _, _, _, _ => none
  | fuel + 1, count, available, bases, current =>
      if current.length = s.n then
        some { s with count, available, bases, current }
      else
        match available.getLast? with
        | none => none
        | some q =>
            let available' := available.dropLast
            let (count', available'') := removeEdges count available' (s.successors.getD q [])
            let current' := current ++ [q]
            if bases.length < current'.length then
              let bases' := bases ++ [q]
              if bases'.length ≤ s.n then
                buildLoop s fuel count' available'' bases' current'
              else none
            else buildLoop s fuel count' available'' bases current'

/-- The outcome of one call to `Iterator::next`: a panic, `None` (with the
final state), or `Some(())` (with the state holding the next sort). -/
inductive NextResult where
  | crash
  | finished (s : AllTopologicalSorts)
  | yielded (s : AllTopologicalSorts)
  deriving DecidableEq, Repr

def stepBuild (s : AllTopologicalSorts) : NextResult :=
  if s.done then .finished s
  else
    match buildLoop s (s.n + 1 - s.current.length) s.count s.available s.bases s.current with
    | none => .crash
    | some s' => .yielded s'

def next (s : AllTopologicalSorts) : NextResult :=
  if s.current.length = s.n ∧ s.done = false then
    match backtrackLoop s.successors s.current.length s.count s.available s.bases s.current with
    | none => .crash
    | some (count, available, bases, current) =>
        let s' := { s with count, available, bases, current }
        if current.isEmpty ∧ bases.isEmpty then .finished { s' with done := true }
        else stepBuild s'
  else stepBuild s

/-- Drive the iterator, collecting `current()` after every `next()` that
returns `Some`.  `none` when the fuel runs out or the iterator panics. -/
def runIter : Nat → AllTopologicalSorts → Option (List (List Nat))
  | 0, _ => none
  | fuel + 1, s =>
      match next s with
      | .crash => none
      | .finished _ => some []
      | .yielded s' => (runIter fuel s').map (fun rest => s'.current :: rest)

end AllTopologicalSorts

/-- An order respects the edges when every edge's `from` is placed before its
`to`. -/
def respectsEdges (edges : List (Nat × Nat)) (order : List Nat) : Bool :=
  edges.all (fun e => order.indexOf e.1 < order.indexOf e.2)

/-- All ways of inserting `x` into a list. -/
def insertEverywhere (x : Nat) : List Nat → List (List Nat)
  | [] => [[x]]
  | y :: ys => (x :: y :: ys) :: (insertEverywhere x ys).map (y :: ·)

/-- All permutations of a list (kernel-reducible). -/
def allPerms : List Nat → List (List Nat)
  | [] => [[]]
  | x :: xs => ((allPerms xs).map (insertEverywhere x)).flatten

/-- All linear extensions of the graph over nodes `1..=n`, as the orders among
the permutations of `[1, …, n]` that respect every edge. -/
def linearExtensions (n : Nat) (edges : List (Nat × Nat)) : List (List Nat) :=
  (allPerms (List.range' 1 n)).filter (respectsEdges edges)

/-- In-degree of node `i` in the edge list. -/
def indegree (edges : List (Nat × Nat)) (i : Nat) : Nat :=
  (edges.filter (fun e => e.2 = i)).length

/-! ## The decoding table (architectures.rs)

`DecodingTable` from `qter_core/src/architectures.rs`.  The `BTreeMap` is
embedded as an association list sorted in ascending lexicographic key order
(`Vec<Int<U>>` keys compare lexicographically); moves are `String`s. -/

/-- Lexicographic `≤` on `Vec<Int<U>>` keys. -/
def keyLe : List Nat → List Nat → Bool
  | [], [] => true
  | [], _ :: _ => true
  | _ :: _, [] => false
  | a :: as, b :: bs => if a < b then true else if b < a then false else keyLe as bs

def natAbsDiff (a b : Nat) : Nat := max a b - min a b

/-- The per-entry distance computed by `update_closest`:
`dist = achieves.abs_diff(target)`, replaced by `order - dist` when
`dist > order / 2`, summed over the registers. -/
def torusDist : List Nat → List Nat → List Nat → Nat
  | a :: as, t :: ts, o :: os =>
      (let d := natAbsDiff a t
       if o / 2 < d then o - d else d) + torusDist as ts os
  | _, _, _ => 0

structure DecodingTable where
  orders : List Nat
  table : List (List Nat × List String)
  deriving DecidableEq, Repr

namespace DecodingTable

/-- `update_closest`: returns the updated `closest` and the `min_dist` the
Rust closure returns (note that when a closest value already existed, the
returned `min_dist` is the *old* distance, even if the new entry is closer). -/
def updateClosest (orders target : List Nat)
    (closest : Option (Nat × List Nat × List String))
    (achieves : List Nat) (alg : List String) :
    Option (Nat × List Nat × List String) × Nat :=
  let dist := torusDist achieves target orders
  match closest with
  | some (oldDist, k, a) =>
      if dist < oldDist then (some (dist, achieves, alg), oldDist)
      else (some (oldDist, k, a), oldDist)
  | none => (some (dist, achieves, alg), dist)

/-- The radial-expansion loop of `closest_alg`.  The two ranges are
materialised as lists (`range(target..)` chained with the whole table, and
`range(..=target).rev()` chained with the whole table reversed); drawing from
an exhausted range models the `unwrap` panic as the outer `none`. -/
def closestLoop (orders target : List Nat) :
    Nat → List (List Nat × List String) → List (List Nat × List String) →
    Bool → Bool → Nat → Nat →
    Option (Nat × List Nat × List String) →
    Option (Option (Nat × List Nat × List String))
  | 0, _, _, _, _, _, _, closest => some closest
  | fuel + 1, startRange, endRange, takeStart, takeEnd, amt, len, closest =>
      if (takeEnd = true ∨ takeStart = true) ∧ amt < len then
        match
          (if takeStart then
            match startRange with
            | [] => none
            | (achieves, alg) :: rest =>
                let (closest', minDist) := updateClosest orders target closest achieves alg
                let takeStart' :=
                  ¬ minDist < natAbsDiff (target.getD 0 0) (achieves.getD 0 0)
                some (rest, takeStart', amt + 1, closest')
          else some (startRange, takeStart, amt, closest) :
            Option (List (List Nat × List String) × Bool × Nat ×
              Option (Nat × List Nat × List String)))
        with
        | none => none
        | some (startRange', takeStart', amt', closest') =>
            match
              (if takeEnd then
                match endRange with
                | [] => none
                | (achieves, alg) :: rest =>
                    let (closest'', minDist) :=
                      updateClosest orders target closest' achieves alg
                    let takeEnd' :=
                      ¬ minDist < natAbsDiff (achieves.getD 0 0) (target.getD 0 0)
                    some (rest, takeEnd', amt' + 1, closest'')
              else some (endRange, takeEnd, amt', closest') :
                Option (List (List Nat × List String) × Bool × Nat ×
                  Option (Nat × List Nat × List String)))
            with
            | none => none
            | some (endRange', takeEnd', amt'', closest'') =>
                closestLoop orders target fuel startRange' endRange'
                  takeStart' takeEnd' amt'' len closest''
      else some closest

/-- `closest_alg`: `none` models a panic (final `closest.unwrap()` on an
empty table, or an exhausted range). -/
def closest_alg (t : DecodingTable) (target : List Nat) :
    Option (List Nat × List String) :=
  let len := t.table.length
  let endRange := t.table.filter (fun e => keyLe target e.1) ++ t.table
  let startRange :=
    (t.table.filter (fun e => keyLe e.1 target)).reverse ++ t.table.reverse
  match closestLoop t.orders target (len + 1) startRange endRange true true 0 len none with
  | some (some (_, k, alg)) => some (k, alg)
  | _ => none

end DecodingTable

/-- `new_from_effect` from `qter_core/src/architectures.rs`.  The
architecture's register orders coincide with the table's `orders` field
(`decoding_table` copies them from the registers).  The `while` loop is given
explicit fuel; `none` means the fuel ran out or `closest_alg` panicked.
(In Rust an out-of-range register index panics; list `set` ignores it — the
inputs used here keep indices in range.) -/
def newFromEffectLoop (t : DecodingTable) :
    Nat → List Nat → List String → Option (List String)
  | 0, _, _ => none
  | fuel + 1, expandedEffect, moveSeq =>
      if expandedEffect.any (fun v => v ≠ 0) then
        match t.closest_alg expandedEffect with
        | none => none
        | some (trueEffect, alg) =>
            let expandedEffect' :=
              (expandedEffect.zip (trueEffect.zip t.orders)).map
                (fun p =>
                  if p.1 < p.2.1 then p.1 + p.2.2 - p.2.1 else p.1 - p.2.1)
            newFromEffectLoop t fuel expandedEffect' (moveSeq ++ alg)
      else some moveSeq

def new_from_effect (t : DecodingTable) (effect : List (Nat × Nat)) (fuel : Nat) :
    Option (List String) :=
  let expandedEffect :=
    effect.foldl
      (fun acc p => acc.set p.1 (p.2 % t.orders.getD p.1 0))
      (List.replicate t.orders.length 0)
  newFromEffectLoop t fuel expandedEffect []

/-! ## Permutations and the robot adapter (interpreter/src/puzzle_states/mod.rs)

A `Permutation` is embedded as its mapping, a `List Nat` (`mapping().get(i)` is
`getD i i`: a facelet beyond the support maps to itself).  The `Permutation`
operations themselves live in the `puzzle_theory` crate, which is not under
`src/`, so composition, inversion and cycle decomposition are modelled from
the spec. -/

def permApply (p : List Nat) (i : Nat) : Nat := p.getD i i

/-- Modelled from the spec: `Permutation::compose_into` of `puzzle_theory`
(not under `src/`).  "Permutation: finite map on `[0..N)`.  Operations:
identity, compose (in place and out)" — composing `q` into the state `p`
yields the map sending `i` through `p` and then through `q`. -/
def composePerm (p q : List Nat) : List Nat :=
  (List.range (max p.length q.length)).map (fun i => permApply q (permApply p i))

/-- Modelled from the spec: `Permutation` inversion of `puzzle_theory`
(not under `src/`): the inverse map sends `j` to the `i` with `p i = j`. -/
def invPerm (p : List Nat) : List Nat :=
  (List.range p.length).map (fun j => p.indexOf j)

/-- Modelled from the spec: `Permutation::cycles()` of `puzzle_theory`
(not under `src/`): "returns cycles of length ≥ 2 exactly once each;
within each cycle, successors come from the permutation mapping".
Each cycle starts at its smallest unvisited facelet. -/
def cycleWalk (p : List Nat) (start : Nat) : Nat → Nat → List Nat
  | 0, _ => []
  | fuel + 1, cur =>
      if permApply p cur = start then [cur]
      else cur :: cycleWalk p start fuel (permApply p cur)

def permCycles (p : List Nat) : List (List Nat) :=
  (List.range p.length).foldl
    (fun acc i =>
      if acc.any (fun c => i ∈ c) then acc
      else
        let c := cycleWalk p i (p.length + 1) i
        if 2 ≤ c.length then acc ++ [c] else acc)
    []

/-- `chromatic_orders_by_facelets` from `qter_core/src/architectures.rs`:
one entry per facelet, initialised to 1, and set to the repeated-prefix
length of the cycle's color word for every facelet on a cycle. -/
def chromatic_orders_by_facelets (p : List Nat) (colors : List String) :
    List Nat :=
  (permCycles p).foldl
    (fun out c =>
      let ord := length_of_substring_that_this_string_is_n_repeated_copies_of
        (c.map (fun idx => colors.getD idx ""))
      c.foldl (fun o f => o.set f ord) out)
    (List.replicate colors.length 1)

/-- `lcm_iter` of `puzzle_theory::numbers` (not under `src/`), modelled from
the spec: the LCM of a list, with 1 for the empty list. -/
def lcmList (l : List Nat) : Nat := l.foldl Nat.lcm 1

/-- `RobotState::facelets_solved`: every chosen facelet's image has the same
color as the facelet itself. -/
def faceletsSolved (colors : List String) (state : List Nat)
    (facelets : List Nat) : Bool :=
  facelets.all (fun f => colors.getD (permApply state f) "" = colors.getD f "")

namespace RobotState

/-- The `while !self.facelets_solved(...)` loop of `RobotState::halt`.
`sum` is incremented before the bound check, and the inverse generator is
composed in afterwards, exactly as in the Rust loop. -/
def haltAux {σ : Type} (stepf : σ → σ) (solved : σ → Bool) (order : Nat) :
    Nat → σ → Nat → Option Nat
  | 0, s, sum => if solved s then some sum else none
  | fuel + 1, s, sum =>
      if solved s then some sum
      else if order ≤ sum + 1 then none
      else haltAux stepf solved order fuel (stepf s) (sum + 1)

/-- The order computed by `RobotState::halt`: the LCM of the chromatic orders
of the given facelets under the (inverted) generator. -/
def haltOrder (colors : List String) (g : List Nat) (facelets : List Nat) :
    Nat :=
  lcmList
    (facelets.map
      (fun i => (chromatic_orders_by_facelets (invPerm g) colors).getD i 1))

/-- `RobotState::halt` (which also implements `repeat_until`): invert the
generator, then repeatedly compose it in, counting, until the facelets are
solved or the counter reaches the LCM of their chromatic orders. -/
def halt (colors : List String) (g : List Nat) (facelets : List Nat)
    (p : List Nat) : Option Nat :=
  let ginv := invPerm g
  let order := haltOrder colors g facelets
  haltAux (fun q => composePerm q ginv)
    (fun q => faceletsSolved colors q facelets) order order p 0

end RobotState

/-! ## The remote-robot client cache (remote_robot.rs)

`RemoteRobot` from `interpreter/src/puzzle_states/remote_robot.rs`.  The
client holds `current_state : Option<Permutation>`; the server (the robot at
the other end of the connection) holds the physical permutation.  One API
call is one protocol exchange; its `ok` flag is the server's `!ACK`/`!ERR`
answer.  On `!ERR` the robot may have failed before moving, so the server
state is left unchanged in that outcome.  `Permutation::identity()` is the
empty mapping `[]`.  The `Bool` in the result records whether the call put a
`!PICTURE` command on the wire, and the `Option` is the permutation a
`take_picture` call returns. -/

structure RemoteWorld where
  cache : Option (List Nat)
  server : List Nat
  deriving DecidableEq, Repr

inductive RobotEvent where
  | composeInto (alg : List Nat) (ok : Bool)
  | takePicture (ok : Bool)
  | solveCmd (ok : Bool)
  deriving DecidableEq, Repr

/-- One client call.  `compose_into` clears `current_state` before sending;
`take_picture` consults the cache and only queries the server (sending
`!PICTURE`) when it is empty; `solve` stores `Permutation::identity()` into
the cache *before* awaiting the server's acknowledgement. -/
def stepWorld (w : RemoteWorld) :
    RobotEvent → RemoteWorld × Bool × Option (List Nat)
  | .composeInto alg ok =>
      ({ cache := none,
         server := if ok then composePerm w.server alg else w.server },
        false, none)
  | .takePicture ok =>
      match w.cache with
      | some p => (w, false, some p)
      | none =>
          if ok then ({ w with cache := some w.server }, true, some w.server)
          else (w, true, none)
  | .solveCmd ok =>
      ({ cache := some [],
         server := if ok then [] else w.server }, false, none)

def runWorld (w : RemoteWorld) (events : List RobotEvent) : RemoteWorld :=
  events.foldl (fun w e => (stepWorld w e).1) w

/-- `RemoteRobot::initialize` leaves `current_state = None`, and `RobotLike`
initialises the puzzle in the solved state. -/
def initWorld : RemoteWorld := { cache := none, server := [] }

/-! ## The macro expander (compiler/src/lib.rs, macro_expansion.rs,
builtin_macros.rs)

The compiler's syntax types from `compiler/src/lib.rs`, shallowly.  `Span`
comes from `puzzle_theory::span`, which is not under `src/`: it is modelled
from the spec ("a (file-handle, byte-offset, byte-length) triple with lazy
line/column"), as a byte range into a fixed source string; `line` is
1-based, counting newlines, and `slice` is the spanned substring.
`Rich` diagnostics are modelled as a span plus the message string.
`BlockID` is a `Nat`; the `HashMap`s are association lists (insertion
prepends, so lookup finds the latest binding, as a `HashMap` overwrite
does).  `Instruction::LuaCall` is `todo!()` in the source and is not
translated; the programs of the claims do not use it. -/

structure Span where
  start : Nat
  stop : Nat
  deriving DecidableEq, Repr

def lineOf (src : String) (sp : Span) : Nat :=
  ((src.toList.take sp.start).filter (fun c => c = '\n')).length + 1

def sliceOf (src : String) (sp : Span) : String :=
  String.mk ((src.toList.drop sp.start).take (sp.stop - sp.start))

structure Diag where
  span : Span
  message : String
  deriving DecidableEq, Repr

instance {e a : Type} [DecidableEq e] [DecidableEq a] : DecidableEq (Except e a)
  | .ok x, .ok y =>
      if h : x = y then isTrue (by rw [h])
      else isFalse (by intro hh; cases hh; exact h rfl)
  | .ok _, .error _ => isFalse (by intro hh; exact Except.noConfusion hh)
  | .error _, .ok _ => isFalse (by intro hh; exact Except.noConfusion hh)
  | .error x, .error y =>
      if h : x = y then isTrue (by rw [h])
      else isFalse (by intro hh; cases hh; exact h rfl)

structure RegisterReference where
  regName : String
  regSpan : Span
  modulus : Option Nat
  deriving DecidableEq, Repr

structure LabelReference where
  name : String
  blockId : Nat
  deriving DecidableEq, Repr

structure Label where
  name : String
  isPublic : Bool
  maybeBlockId : Option Nat
  availableInBlocks : Option (List Nat)
  deriving DecidableEq, Repr

inductive Primitive where
  | add (amt : Nat) (amtSpan : Span) (register : RegisterReference)
  | goto (label : LabelReference) (labelSpan : Span)
  | solvedGoto (label : LabelReference) (labelSpan : Span)
      (register : RegisterReference)
  | input (message : String) (msgSpan : Span) (register : RegisterReference)
  | halt (message : String) (msgSpan : Span)
      (register : Option RegisterReference)
  | print (message : String) (msgSpan : Span)
      (register : Option RegisterReference)
  deriving DecidableEq, Repr

mutual

inductive ResolvedValue where
  | int (n : Nat)
  | ident (s : String)
  | blockVal (code : List (Instruction × Option Nat × Span))

inductive Value where
  | resolvedVal (v : ResolvedValue)
  | constantVal (name : String)

inductive Code where
  | prim (p : Primitive)
  | mcall (name : String) (nameSpan : Span) (args : List (Value × Span))
      (argsSpan : Span)

inductive Instruction where
  | label (l : Label)
  | code (c : Code)
  | constant (name : String)
  | defineInstr (name : String) (nameSpan : Span) (value : Value)
      (valueSpan : Span)

end

/-- `WithSpan<TaggedInstruction>`: instruction, optional block tag, span. -/
def TaggedWithSpan : Type := Instruction × Option Nat × Span

structure DefineResolved where
  name : String
  nameSpan : Span
  value : ResolvedValue
  valueSpan : Span

structure BlockInfo where
  parentBlock : Option Nat
  childBlocks : List Nat
  defines : List (String × DefineResolved)
  labels : List Label

structure BlockInfoTracker where
  blocks : List (Nat × BlockInfo)
  blockCounter : Nat

def BlockInfoTracker.lookupBlock (t : BlockInfoTracker) (id : Nat) :
    Option BlockInfo :=
  t.blocks.lookup id

def BlockInfoTracker.setBlock (t : BlockInfoTracker) (id : Nat)
    (info : BlockInfo) : BlockInfoTracker :=
  { t with blocks := t.blocks.map (fun b => if b.1 = id then (id, info) else b) }

/-- `BlockInfoTracker::get_define`: walk the parent chain; the fuel is the
block count (the chain is acyclic in every reachable tracker). -/
def BlockInfoTracker.getDefine (t : BlockInfoTracker) :
    Nat → Nat → String → Option DefineResolved
  | 0, _, _ => none
  | fuel + 1, blockId, name =>
      match t.lookupBlock blockId with
      | none => none
      | some info =>
          match info.defines.lookup name with
          | some d => some d
          | none =>
              match info.parentBlock with
              | none => none
              | some p => t.getDefine fuel p name

/-- `BlockInfoTracker::resolve`. -/
def BlockInfoTracker.resolveValue (t : BlockInfoTracker) (blockId : Nat) :
    Value → Option ResolvedValue
  | .resolvedVal v => some v
  | .constantVal name =>
      (t.getDefine t.blocks.length blockId name).map (fun d => d.value)

/-- `BlockInfoTracker::new_block`. -/
def BlockInfoTracker.newBlock (t : BlockInfoTracker) (parent : Nat) :
    Nat × BlockInfoTracker :=
  let newId := t.blockCounter
  let t1 :=
    match t.lookupBlock parent with
    | some info =>
        t.setBlock parent { info with childBlocks := info.childBlocks ++ [newId] }
    | none => t
  (newId,
    { blocks := t1.blocks ++
        [(newId, ⟨some parent, [], [], []⟩)]
      blockCounter := t.blockCounter + 1 })

inductive Puzzle where
  | theoretical (name : String) (order : Nat)
  | real (architectures : List (List String))

structure RegistersDecl where
  puzzles : List Puzzle

/-- `RegistersDecl::get_register`: find the register's name among the
declared puzzles. -/
def RegistersDecl.getRegister (decl : RegistersDecl)
    (ref : RegisterReference) : Option (RegisterReference × Puzzle) :=
  decl.puzzles.findSome?
    (fun puzzle =>
      match puzzle with
      | .theoretical name _ =>
          if ref.regName = name then some (ref, puzzle) else none
      | .real architectures =>
          if architectures.any (fun names => names.contains ref.regName) then
            some (ref, puzzle)
          else none)

structure ExpansionInfo where
  registers : Option RegistersDecl
  blockInfo : BlockInfoTracker

def ExpansionInfo.getRegister (info : ExpansionInfo)
    (ref : RegisterReference) : Option (RegisterReference × Puzzle) :=
  match info.registers with
  | some regs => regs.getRegister ref
  | none => none

/-- `try_parse_mod`'s `rfind('%')`: split at the last `%`, if any. -/
def splitAtLastChar (c : Char) : List Char → Option (List Char × List Char)
  | [] => none
  | x :: xs =>
      match splitAtLastChar c xs with
      | some (b, a) => some (x :: b, a)
      | none => if x = c then some ([], xs) else none

/-- Decimal parse of `Int<U>` (from `puzzle_theory::numbers`, not under
`src/`; modelled from the spec's unbounded nonnegative integers). -/
def parseDigits (cs : List Char) : Option Nat :=
  if cs.isEmpty then none
  else
    cs.foldl
      (fun acc c =>
        match acc with
        | none => none
        | some n => if c.isDigit then some (n * 10 + (c.toNat - 48)) else none)
      (some 0)

/-- `RegisterReference::parse`: `none` models the `ParseIntError` case. -/
def RegisterReference.parse (name : String) (sp : Span) :
    Option RegisterReference :=
  match splitAtLastChar (Char.ofNat 37) name.toList with
  | none => some ⟨name, sp, none⟩
  | some (bef, aft) => (parseDigits aft).map (fun m => ⟨String.mk bef, sp, some m⟩)

/-- `expect_reg` from `builtin_macros.rs`. -/
def expectReg (info : ExpansionInfo) (regValue : Value × Span)
    (blockId : Nat) : Except Diag RegisterReference :=
  match info.blockInfo.resolveValue blockId regValue.1 with
  | some (.ident regName) =>
      match RegisterReference.parse regName regValue.2 with
      | none => .error ⟨regValue.2, "Could not parse the modulus as a string"⟩
      | some parsed =>
          match info.getRegister parsed with
          | some (reg, _) => .ok reg
          | none =>
              .error ⟨regValue.2,
                "The register " ++ regName ++ " does not exist"⟩
  | some _ => .error ⟨regValue.2, "Expected a register"⟩
  | none => .error ⟨regValue.2, "Constant not found in this scope"⟩

/-- `expect_label` from `builtin_macros.rs`. -/
def expectLabel (info : ExpansionInfo) (labelValue : Value × Span)
    (blockId : Nat) : Except Diag (LabelReference × Span) :=
  match info.blockInfo.resolveValue blockId labelValue.1 with
  | some (.ident labelName) => .ok (⟨labelName, blockId⟩, labelValue.2)
  | some _ => .error ⟨labelValue.2, "Expected a label"⟩
  | none => .error ⟨labelValue.2, "Constant not found in this scope"⟩

def trimQuotes (s : String) : String :=
  String.mk
    (((s.toList.dropWhile (fun c => c = Char.ofNat 34)).reverse.dropWhile
      (fun c => c = Char.ofNat 34)).reverse)

inductive BuiltinResult where
  | notBuiltin
  | panicked
  | errored (d : Diag)
  | okInstrs (instrs : List Instruction)

/-- `print_like` from `builtin_macros.rs`; `none` models the `unwrap` panic
on an empty argument list. -/
def printLike (info : ExpansionInfo) (args : List (Value × Span))
    (argsSpan : Span) (blockId : Nat) :
    Option (Except Diag (Option RegisterReference × String × Span)) :=
  if 2 < args.length then
    some (.error ⟨argsSpan,
      "Expected one or two arguments, found " ++ toString args.length⟩)
  else
    let popReg :
        Except Diag (Option RegisterReference) × List (Value × Span) :=
      if args.length = 2 then
        match args.getLast? with
        | some last =>
            (match expectReg info last blockId with
             | .ok r => .ok (some r)
             | .error e => .error e, args.dropLast)
        | none => (.ok none, args)
      else (.ok none, args)
    match popReg.1 with
    | .error e => some (.error e)
    | .ok maybeReg =>
        match popReg.2.getLast? with
        | none => none
        | some message =>
            match info.blockInfo.resolveValue blockId message.1 with
            | some (.ident rawMessage) =>
                some (.ok (maybeReg, rawMessage, message.2))
            | some _ => some (.error ⟨message.2, "Expected a message"⟩)
            | none =>
                some (.error ⟨message.2, "Constant not found in this scope"⟩)

/-- The builtin macros of `builtin_macros.rs` (`add`, `goto`, `solved-goto`,
`input`, `halt`, `print`).  The parser (not under `src/`) registers them for
every file via the prelude, so availability is modelled as: exactly these
names are available. -/
def applyBuiltin (info : ExpansionInfo) (name : String)
    (args : List (Value × Span)) (argsSpan : Span) (blockId : Nat) :
    BuiltinResult :=
  if name = "add" then
    if args.length ≠ 2 then
      .errored ⟨argsSpan, "Expected two arguments, found " ++ toString args.length⟩
    else
      match args.getLast? with
      | none => .panicked
      | some secondArg =>
          match info.blockInfo.resolveValue blockId secondArg.1 with
          | some (.int n) =>
              match args.dropLast.getLast? with
              | none => .panicked
              | some firstArg =>
                  match expectReg info firstArg blockId with
                  | .error e => .errored e
                  | .ok reg =>
                      .okInstrs [.code (.prim (.add n secondArg.2 reg))]
          | some _ => .errored ⟨secondArg.2, "Expected a number"⟩
          | none => .errored ⟨secondArg.2, "Constant not found in this scope"⟩
  else if name = "goto" then
    if args.length ≠ 1 then
      .errored ⟨argsSpan, "Expected one argument, found " ++ toString args.length⟩
    else
      match args.getLast? with
      | none => .panicked
      | some labelArg =>
          match expectLabel info labelArg blockId with
          | .error e => .errored e
          | .ok (l, lsp) => .okInstrs [.code (.prim (.goto l lsp))]
  else if name = "solved-goto" then
    if args.length ≠ 2 then
      .errored ⟨argsSpan, "Expected two arguments, found " ++ toString args.length⟩
    else
      match args.getLast? with
      | none => .panicked
      | some labelArg =>
          match expectLabel info labelArg blockId with
          | .error e => .errored e
          | .ok (l, lsp) =>
              match args.dropLast.getLast? with
              | none => .panicked
              | some regArg =>
                  match expectReg info regArg blockId with
                  | .error e => .errored e
                  | .ok reg => .okInstrs [.code (.prim (.solvedGoto l lsp reg))]
  else if name = "input" then
    if args.length ≠ 2 then
      .errored ⟨argsSpan, "Expected two arguments, found " ++ toString args.length⟩
    else
      match args.getLast? with
      | none => .panicked
      | some regArg =>
          match expectReg info regArg blockId with
          | .error e => .errored e
          | .ok reg =>
              match args.dropLast.getLast? with
              | none => .panicked
              | some message =>
                  match info.blockInfo.resolveValue blockId message.1 with
                  | some (.ident rawMessage) =>
                      .okInstrs
                        [.code (.prim
                          (.input (trimQuotes rawMessage) message.2 reg))]
                  | some _ => .errored ⟨message.2, "Expected a message"⟩
                  | none =>
                      .errored ⟨message.2, "Constant not found in this scope"⟩
  else if name = "halt" then
    match printLike info args argsSpan blockId with
    | none => .panicked
    | some (.error e) => .errored e
    | some (.ok (reg, msg, msp)) =>
        .okInstrs [.code (.prim (.halt msg msp reg))]
  else if name = "print" then
    match printLike info args argsSpan blockId with
    | none => .panicked
    | some (.error e) => .errored e
    | some (.ok (reg, msg, msp)) =>
        .okInstrs [.code (.prim (.print msg msp reg))]
  else .notBuiltin

/-- `OnceCell::set`: only the first `set` of a pass sticks. -/
def setOnce (c : Option Span) (s : Span) : Option Span :=
  match c with
  | none => some s
  | some x => some x

/-- `expand_code` from `macro_expansion.rs`: primitives pass through
untouched; a macro call first marks the pass as changed at the call's name
span, then dispatches to the (builtin) macro. -/
def expandCode (info : ExpansionInfo) (blockId : Nat) (c : Code)
    (changed : Option Span) :
    Except Diag (List (Instruction × Option Nat)) × Option Span :=
  match c with
  | .prim p => (.ok [(.code (.prim p), some blockId)], changed)
  | .mcall name nameSpan args argsSpan =>
      let changed' := setOnce changed nameSpan
      match applyBuiltin info name args argsSpan blockId with
      | .notBuiltin =>
          (.error ⟨nameSpan, "Macro was not found in this scope"⟩, changed')
      | .panicked =>
          (.error ⟨nameSpan, "Macro was not found in this scope"⟩, changed')
      | .errored e => (.error e, changed')
      | .okInstrs instrs =>
          (.ok (instrs.map (fun i => (i, some blockId))), changed')

/-- One instruction of a pass of `expand_block`: the tagging `map` phase
followed by the `flat_map` dispatch.  Returns the updated expansion state,
the instructions this one expands into, the diagnostics it produced, and the
updated `changed` cell. -/
def processInstruction (blockId : Nat) (info : ExpansionInfo)
    (changed : Option Span) (item : TaggedWithSpan) :
    ExpansionInfo × List TaggedWithSpan × List Diag × Option Span :=
  let (instr, tag0, sp) := item
  let tagged : Nat × Option Span :=
    match tag0 with
    | none => (blockId, setOnce changed sp)
    | some t => (t, changed)
  let bid := tagged.1
  let changed := tagged.2
  match instr with
  | .label l =>
      let upd : Label × Option Span :=
        if l.maybeBlockId = none then
          ({ l with maybeBlockId := some bid }, setOnce changed sp)
        else (l, changed)
      let info' :=
        match info.blockInfo.lookupBlock bid with
        | some binfo =>
            let bi := info.blockInfo.setBlock bid
              { binfo with labels := binfo.labels ++ [upd.1] }
            { info with blockInfo := bi }
        | none => info
      (info', [(.label upd.1, some bid, sp)], [], upd.2)
  | .defineInstr name nameSpan value valueSpan =>
      match info.blockInfo.lookupBlock bid with
      | none => (info, [], [], changed)
      | some binfo =>
          if (binfo.defines.lookup name).isSome then
            (info, [],
              [⟨nameSpan, "Cannot shadow a `.define` in the same scope!"⟩],
              changed)
          else
            match info.blockInfo.resolveValue bid value with
            | none =>
                (info, [], [⟨valueSpan, "Constant not found in this scope"⟩],
                  changed)
            | some rv =>
                let info' :=
                  let bi := info.blockInfo.setBlock bid
                    { binfo with defines :=
                        (name, ⟨name, nameSpan, rv, valueSpan⟩) ::
                          binfo.defines }
                  { info with blockInfo := bi }
                (info', [], [], setOnce changed sp)
  | .code c =>
      match expandCode info bid c changed with
      | (.ok tagged, changed') =>
          (info, tagged.map (fun ti => (ti.1, ti.2, sp)), [], changed')
      | (.error e, changed') => (info, [], [e], changed')
  | .constant name =>
      match info.blockInfo.getDefine info.blockInfo.blocks.length bid name with
      | some d =>
          match d.value with
          | .int _ =>
              (info, [], [⟨sp, "Expected a code block, found an integer"⟩],
                changed)
          | .ident _ =>
              (info, [], [⟨sp, "Expected a code block, found an identifier"⟩],
                changed)
          | .blockVal blockCode =>
              let changed' := setOnce changed sp
              let nb := info.blockInfo.newBlock bid
              let info' := { info with blockInfo := nb.2 }
              (info',
                blockCode.map (fun v => (v.1, some nb.1, v.2.2)), [], changed')
      | none =>
          (info, [],
            [⟨sp, "`" ++ name ++ "` was not found in this scope"⟩], changed)

/-- One pass of `expand_block` over the top-level instruction list. -/
def expandBlock (blockId : Nat) (info : ExpansionInfo)
    (code : List TaggedWithSpan) :
    ExpansionInfo × List TaggedWithSpan × List Diag × Option Span :=
  code.foldl
    (fun acc item =>
      let (info, out, errs, changed) := acc
      let (info', items, errs', changed') :=
        processInstruction blockId info changed item
      (info', out ++ items, errs ++ errs', changed'))
    (info, [], [], none)

inductive ExpandResult where
  | success (info : ExpansionInfo) (code : List TaggedWithSpan)
      (errs : List Diag) (passes : Nat)
  | limitReached (errs : List Diag) (passes : Nat)

/-- The fixpoint loop of `expand`: run passes while something changed,
decrementing the limit, and report a recursion-limit diagnostic at the last
pass's changed span when the limit reaches zero.  The initial limit is 100.
The `passes` component counts the executed passes. -/
def expandLoop : Nat → ExpansionInfo → List TaggedWithSpan → List Diag →
    Nat → ExpandResult
  | 0, _, _, errs, passes => .limitReached errs passes
  | limit + 1, info, code, errs, passes =>
      match expandBlock 0 info code with
      | (info', code', errs', changed) =>
          let errs := errs ++ errs'
          let passes := passes + 1
          match changed with
          | none => .success info' code' errs passes
          | some span =>
              if limit = 0 then
                .limitReached
                  (errs ++
                    [⟨span, "Recursion limit reached during macro expansion"⟩])
                  passes
              else expandLoop limit info' code' errs passes

inductive ExpandedComponent where
  | instrComp (p : Primitive) (blockId : Nat)
  | labelComp (l : Label)
  deriving DecidableEq, Repr

structure ExpandedCode where
  components : List (ExpandedComponent × Span)
  deriving DecidableEq, Repr

structure ParsedQat where
  expansionInfo : ExpansionInfo
  code : List TaggedWithSpan

/-- The final conversion of `expand`: after the fixpoint only labels and
primitives may remain (`unreachable!()` otherwise — modelled as the outer
`none`). -/
def convertExpanded : List TaggedWithSpan → Option (List (ExpandedComponent × Span))
  | [] => some []
  | (instr, tag, sp) :: rest =>
      match instr with
      | .label l =>
          (convertExpanded rest).map (fun r => (.labelComp l, sp) :: r)
      | .code (.prim p) =>
          match tag with
          | some bid =>
              (convertExpanded rest).map (fun r => (.instrComp p bid, sp) :: r)
          | none => none
      | _ => none

/-- `expand` from `macro_expansion.rs`.  The outer `Option` models panics
(`unreachable!()`); the `Except` carries the collected diagnostics. -/
def expand (parsed : ParsedQat) : Option (Except (List Diag) ExpandedCode) :=
  match expandLoop 100 parsed.expansionInfo parsed.code [] 0 with
  | .limitReached errs _ => some (.error errs)
  | .success _ code errs _ =>
      if errs.isEmpty then
        (convertExpanded code).map (fun comps => .ok ⟨comps⟩)
      else some (.error errs)

/-- The number of `expand_block` passes the fixpoint loop executes. -/
def expandPasses (parsed : ParsedQat) : Nat :=
  match expandLoop 100 parsed.expansionInfo parsed.code [] 0 with
  | .limitReached _ p => p
  | .success _ _ _ p => p

/-! ### The recursion-limit test program (compiler/src/lib.rs,
`tests::test_recursion_limit`)

The source text of the test, and its parse result.  Parsing lives in
`compiler/src/parsing.rs`, which is not under `src/`; the parse result is
modelled from the spec's QAT description: the `.registers` declaration
populates `ExpansionInfo.registers`, `.define X { $X }` is a `Define` whose
value is a block holding the constant reference `$X` (at bytes 110–112,
line 7), and the final `$X` is a top-level constant reference (bytes
140–142, line 10).  Block 0 is the root. -/

def sourceC6 : String :=
  "\n            .registers \x7b\n                A <- 3x3 (U)\n            \x7d\n\n            .define X \x7b\n                $X\n            \x7d\n\n            $X\n        "

def initialTracker : BlockInfoTracker :=
  ⟨[(0, ⟨none, [], [], []⟩)], 1⟩

def parsedC6 : ParsedQat :=
  { expansionInfo :=
      { registers := some ⟨[.real [["A"]]]⟩
        blockInfo := initialTracker }
    code :=
      [(.defineInstr "X" ⟨90, 91⟩
          (.resolvedVal (.blockVal [(.constant "X", none, ⟨110, 112⟩)]))
          ⟨92, 126⟩,
        none, ⟨82, 126⟩),
       (.constant "X", none, ⟨140, 142⟩)] }

/-! ## Local optimization: `CoalesceAdds` (compiler/src/optimization/local.rs)

`OptimizingPrimitive` and `OptimizingCodeComponent` live in
`compiler/src/optimization/mod.rs`, which is not under `src/`; they are
modelled from the spec with the variants this development exercises:
coalescible adds (theoretical and puzzle) and the converted algorithm form.
The `Arc<Architecture>` of an `AddPuzzle` is carried as the architecture
decoding table, the only part of it the pipeline below consumes.  `Int<U>`
amounts are unbounded nonnegative integers (`Nat`); a `WithSpan<T>` is a pair
`T × Span`. -/

/-- Modelled from the spec: the optimizing primitives handled by
`CoalesceAdds` (the enum itself is declared in `optimization/mod.rs`, not
under `src/`). -/
inductive OptimizingPrimitive where
  | addTheoretical (theoretical : Nat) (amt : Nat × Span)
  | addPuzzle (puzzle : Nat) (arch : DecodingTable)
      (amts : List (Nat × (Nat × Span)))
  | performAlgorithm (puzzle : Nat) (alg : List String)
  deriving DecidableEq, Repr

/-- Modelled from the spec: an optimizing code component is an instruction
tagged with its block id, or a label. -/
inductive OptimizingCodeComponent where
  | instruction (p : OptimizingPrimitive) (blockId : Nat)
  | labelComp (l : Label)
  deriving DecidableEq, Repr

/-- The state of the `CoalesceAdds` rewriter (`optimization/local.rs`). -/
structure CoalesceAdds where
  block_id : Option Nat
  theoreticals : List ((Nat × (Nat × Span)) × Span)
  puzzles : List ((Nat × DecodingTable × List (Nat × (Nat × Span))) × Span)

namespace CoalesceAdds

/-- `dump_state`: drain the saved adds into instructions.  `none` models the
`block_id.unwrap()` panic (never hit: `block_id` is set whenever an add is
saved). -/
def dumpState (s : CoalesceAdds) :
    Option (List (OptimizingCodeComponent × Span)) :=
  match s.theoreticals, s.puzzles with
  | [], [] => some []
  | ts, ps =>
      match s.block_id with
      | none => none
      | some bid =>
          some
            (ts.map (fun v =>
              (.instruction (.addTheoretical v.1.1 v.1.2) bid, v.2)) ++
             ps.map (fun v =>
              (.instruction (.addPuzzle v.1.1 v.1.2.1 v.1.2.2) bid, v.2)))

/-- The labelled inner loop of `merge_effects`: add the new amount into the
first entry of `effect1` with the same register index (keeping that entry's
amount span), or push it at the end. -/
def mergeOne : List (Nat × (Nat × Span)) → (Nat × (Nat × Span)) →
    List (Nat × (Nat × Span))
  | [], ne => [ne]
  | e :: rest, ne =>
      if e.1 = ne.1 then (e.1, (e.2.1 + ne.2.1, e.2.2)) :: rest
      else e :: mergeOne rest ne

/-- `CoalesceAdds::merge_effects`. -/
def merge_effects (effect1 effect2 : List (Nat × (Nat × Span))) :
    List (Nat × (Nat × Span)) :=
  effect2.foldl mergeOne effect1

/-- The search of the `AddTheoretical` arm of `rewrite`: increment the first
saved theoretical add with this index; `none` when no entry matches. -/
def addIntoTheoreticals :
    List ((Nat × (Nat × Span)) × Span) → Nat → Nat →
    Option (List ((Nat × (Nat × Span)) × Span))
  | [], _, _ => none
  | t :: rest, idx, amt =>
      if t.1.1 = idx then
        some (((t.1.1, (t.1.2.1 + amt, t.1.2.2)), t.2) :: rest)
      else (addIntoTheoreticals rest idx amt).map (fun r => t :: r)

/-- The search of the `AddPuzzle` arm of `rewrite`: merge the new effects
into the first saved puzzle add with this index; `none` when no entry
matches. -/
def addIntoPuzzles :
    List ((Nat × DecodingTable × List (Nat × (Nat × Span))) × Span) →
    Nat → List (Nat × (Nat × Span)) →
    Option (List ((Nat × DecodingTable × List (Nat × (Nat × Span))) × Span))
  | [], _, _ => none
  | p :: rest, idx, amts =>
      if p.1.1 = idx then
        some (((p.1.1, p.1.2.1, merge_effects p.1.2.2 amts), p.2) :: rest)
      else (addIntoPuzzles rest idx amts).map (fun r => p :: r)

/-- `Rewriter::rewrite` for `CoalesceAdds`: adds are absorbed into the state
(emitting nothing), anything else first flushes the saved adds via
`dump_state`.  `none` models the `block_id.unwrap()` panic. -/
def rewrite (s : CoalesceAdds) (component : OptimizingCodeComponent × Span) :
    Option (List (OptimizingCodeComponent × Span) × CoalesceAdds) :=
  let span := component.2
  match component.1 with
  | .instruction p blockId =>
      match p with
      | .addTheoretical idx amt =>
          let s := { s with block_id := some blockId }
          match addIntoTheoreticals s.theoreticals idx amt.1 with
          | some ts => some ([], { s with theoreticals := ts })
          | none =>
              some ([],
                { s with theoreticals := s.theoreticals ++ [((idx, amt), span)] })
      | .addPuzzle idx arch amts =>
          let s := { s with block_id := some blockId }
          match addIntoPuzzles s.puzzles idx amts with
          | some ps => some ([], { s with puzzles := ps })
          | none =>
              some ([],
                { s with puzzles := s.puzzles ++ [((idx, arch, amts), span)] })
      | prim =>
          match s.dumpState with
          | none => none
          | some instrs =>
              some (instrs ++ [(.instruction prim blockId, span)],
                { s with theoreticals := [], puzzles := [] })
  | .labelComp l =>
      match s.dumpState with
      | none => none
      | some instrs =>
          some (instrs ++ [(.labelComp l, span)],
            { s with theoreticals := [], puzzles := [] })

/-- Modelled from the spec: the `Rewriter` driver
(`optimization/combinators.rs`, not under `src/`) feeds the components in
order through `rewrite`, concatenating the outputs, and appends the output of
`eof` (for `CoalesceAdds`, a final `dump_state`) at the end. -/
def runRewriter (s : CoalesceAdds) :
    List (OptimizingCodeComponent × Span) →
    Option (List (OptimizingCodeComponent × Span))
  | [] => s.dumpState
  | c :: rest =>
      match s.rewrite c with
      | none => none
      | some (out, s1) =>
          match runRewriter s1 rest with
          | none => none
          | some r => some (out ++ r)

end CoalesceAdds

/-! ## Q emission (compiler/src/q_emitter.rs) -/

def ALG_MAX_CHARS_WIDTH : Nat := 50

def spacesStr (n : Nat) : String := String.mk (List.replicate n (Char.ofNat 32))

/-- `line_length` of `split_all_short_enough`: length of the line formed by
`strings[start..stop]` joined with single spaces, read off the cumulative
length list (the indices used stay within `cumulative`). -/
def lineLengthOf (cumulative : List Nat) (start stop : Nat) : Nat :=
  cumulative.getD stop 0 - cumulative.getD start 0 + (stop - start - 1)

/-- Row 0 of the dynamic program of `split_all_short_enough`: with zero
splits, prefix `i` forms one line of length `line_length(0, i)`, kept while
it fits the width. -/
def dpRow0 (n width : Nat) (ll : Nat → Nat → Nat) : List (Nat × Nat) :=
  (((List.range (n + 1)).map (fun i => ll 0 i)).takeWhile
    (fun v => v ≤ width)).enum

/-- The inner `j` loop of the dynamic program: try last-partition sizes
`j = 1, 2, ...`, breaking when the last line no longer fits, skipping prefix
lengths absent from the previous row, and keeping the choice minimising the
longest line. -/
def optLoop (last : List (Nat × Nat)) (ll : Nat → Nat → Nat) (width i : Nat) :
    Nat → Nat → Option (Nat × Nat) → Option (Nat × Nat)
  | 0, _, acc => acc
  | rem + 1, j, acc =>
      let l := ll (i - j) i
      if width < l then acc
      else
        let acc1 :=
          match last.get? (i - j) with
          | none => acc
          | some e =>
              let m := max e.2 l
              match acc with
              | none => some (j, m)
              | some o => if m < o.2 then some (j, m) else o
        optLoop last ll width i rem (j + 1) acc1

/-- The `i` loop filling the next row: extend while an optimal last partition
exists, break otherwise. -/
def rowGo (last : List (Nat × Nat)) (ll : Nat → Nat → Nat) (width k : Nat) :
    List Nat → List (Nat × Nat) → List (Nat × Nat)
  | [], acc => acc
  | i :: rest, acc =>
      match optLoop last ll width i (i - k) 1 none with
      | some item => rowGo last ll width k rest (acc ++ [item])
      | none => acc

/-- The `while` loop of `split_all_short_enough`: add rows until the last row
covers all `n + 1` prefix lengths.  Each pass appends a strictly longer row,
so `n + 1` fuel always suffices; `none` models fuel running out. -/
def dpLoop (n width : Nat) (ll : Nat → Nat → Nat) :
    Nat → List (List (Nat × Nat)) → Option (List (List (Nat × Nat)))
  | 0, _ => none
  | fuel + 1, dp =>
      match dp.getLast? with
      | none => none
      | some last =>
          if last.length = n + 1 then some dp
          else
            let k := dp.length
            let zeros := List.replicate (k + 1) ((0, 0) : Nat × Nat)
            let nextRow := rowGo last ll width k (List.range' (k + 1) (n - k)) zeros
            dpLoop n width ll fuel (dp ++ [nextRow])

/-- The backtracking loop of `split_all_short_enough`, walking the rows from
last to first and cutting the chosen last partition off the tail each time;
`none` models an out-of-bounds row index. -/
def backGo : List (List (Nat × Nat)) → List String → List String →
    Option (List String)
  | [], _, out => some out
  | row :: rest, notTaken, out =>
      match row.get? notTaken.length with
      | none => none
      | some e =>
          let cut := notTaken.length - e.1
          backGo rest (notTaken.take cut)
            (String.intercalate " " (notTaken.drop cut) :: out)

/-- `split_all_short_enough` from `q_emitter.rs`. -/
def split_all_short_enough (strings : List String) (maxLineWidth : Nat) :
    Option (List String) :=
  if strings.isEmpty then some []
  else
    let n := strings.length
    let cumulative := (strings.map String.length).scanl (fun a b => a + b) 0
    let ll := lineLengthOf cumulative
    match dpLoop n maxLineWidth ll (n + 1) [dpRow0 n maxLineWidth ll] with
    | none => none
    | some dp => backGo dp.reverse strings []

/-- The `while let` loop of `split_strings`: pull out each string at least as
long as the line width onto its own line, splitting the runs of short strings
around it. -/
def splitStringsGo : Nat → List String → Nat → List String →
    Option (List String)
  | 0, _, _, _ => none
  | fuel + 1, strings, lineWidth, out =>
      match strings.findIdx? (fun v => lineWidth ≤ v.length) with
      | some i =>
          let before := strings.take i
          let s := strings.getD i ""
          let after := strings.drop (i + 1)
          match split_all_short_enough before lineWidth with
          | none => none
          | some lines => splitStringsGo fuel after lineWidth (out ++ lines ++ [s])
      | none =>
          match split_all_short_enough strings lineWidth with
          | none => none
          | some lines => some (out ++ lines)

/-- `split_strings` from `q_emitter.rs`. -/
def split_strings (strings : List String) (lineWidth : Nat) :
    Option (List String) :=
  splitStringsGo (strings.length + 1) strings lineWidth []

/-- `stringify_alg` from `q_emitter.rs`. -/
def stringify_alg (alg : List String) (padding : Nat) (padFirst : Bool) :
    Option String :=
  let paddingStr := spacesStr padding
  (split_strings alg (ALG_MAX_CHARS_WIDTH - padding)).map
    (fun lines =>
      String.intercalate "\n"
        (lines.enum.map (fun p =>
          if p.1 = 0 ∧ padFirst = false then p.2 else paddingStr ++ p.2)))

/-- Modelled from the spec: the subset of `qter_core::Instruction`
(`runtime.rs` is not under `src/`) that the nested-define program compiles
to — a puzzle algorithm to perform. -/
inductive ProgramInstruction where
  | performAlgorithm (puzzleIdx : Nat) (alg : List String)
  deriving DecidableEq, Repr

/-- Modelled from the spec: the fields of `qter_core::Program`
(`runtime.rs`, not under `src/`) that `emit_q` reads — the theoretical
registers (their spans), the puzzles (the source slice of each declaration
and its span), and the instruction list. -/
structure Program where
  theoretical : List Span
  puzzles : List (String × Span)
  instructions : List (ProgramInstruction × Span)
  deriving DecidableEq, Repr

/-- `usize::ilog10` (for positive `n`), written with explicit fuel. -/
def ilog10Go : Nat → Nat → Nat
  | 0, _ => 0
  | fuel + 1, n => if n < 10 then 0 else ilog10Go fuel (n / 10) + 1

def ilog10 (n : Nat) : Nat := ilog10Go n n

def padNum (i digits : Nat) : String :=
  toString i ++ spacesStr (digits - (toString i).length)

/-- The per-instruction emission loop of `emit_q`, restricted to the
`PerformAlgorithm` instruction form: each instruction becomes the line
`{num} | {stringified algorithm}` (the braces here denote the interpolated
values). -/
def emitLines (digits padding : Nat) :
    Nat → List (ProgramInstruction × Span) → Option String
  | _, [] => some ""
  | i, (instr, _) :: rest =>
      match instr with
      | .performAlgorithm _ alg =>
          match stringify_alg alg padding false with
          | none => none
          | some body =>
              match emitLines digits padding (i + 1) rest with
              | none => none
              | some r => some (padNum i digits ++ " | " ++ body ++ "\n" ++ r)

/-- `emit_q` from `q_emitter.rs` (for the instruction subset modelled):
reject theoretical registers and multiple puzzles, then emit the `Puzzles`
header followed by one numbered line per instruction. -/
def emit_q (program : Program) : Option (Except (List Diag) String) :=
  let errors : List Diag :=
    program.theoretical.map
      (fun sp =>
        ⟨sp, "Cannot compile a QAT program with theoretical registers"⟩)
  let errors :=
    if 1 < program.puzzles.length then
      errors ++
        [⟨(program.puzzles.getD 1 ("", ⟨0, 0⟩)).2,
          "Compiling with multiple puzzles is unsupported (for now)"⟩]
    else errors
  if errors ≠ [] then some (.error errors)
  else
    let header :=
      "Puzzles\n" ++
        (match program.puzzles.head? with
         | some p => "A: " ++ p.1 ++ "\n"
         | none => "") ++ "\n"
    let digits := ilog10 (max program.instructions.length 2 - 1) + 1
    match emitLines digits (digits + 3) 0 program.instructions with
    | none => none
    | some lines => some (.ok (header ++ lines))

/-! ## The nested-define test program (compiler/src/lib.rs, `tests::test_define`)

The source text of the test and its parse result (parsing lives in
`compiler/src/parsing.rs`, not under `src/`; the parse result is modelled
from the spec exactly as for the recursion-limit program): five defines
followed by the three constant references `$X`, `$Y`, `$Z`. -/

def sourceC5 : String :=
  "\n            .registers \x7b\n                A <- 3x3 (U)\n            \x7d\n\n            .define one 1\n            .define var A\n\n            .define X \x7b\n                add $var $one\n            \x7d\n            .define Y $X\n            .define Z $Y\n\n            $X\n            $Y\n            $Z\n        "

def parsedC5 : ParsedQat :=
  { expansionInfo :=
      { registers := some ⟨[.real [["A"]]]⟩
        blockInfo := initialTracker }
    code :=
      [(.defineInstr "one" ⟨90, 93⟩ (.resolvedVal (.int 1)) ⟨94, 95⟩,
          none, ⟨82, 95⟩),
       (.defineInstr "var" ⟨116, 119⟩ (.resolvedVal (.ident "A")) ⟨120, 121⟩,
          none, ⟨108, 121⟩),
       (.defineInstr "X" ⟨143, 144⟩
          (.resolvedVal (.blockVal
            [(.code (.mcall "add" ⟨163, 166⟩
                [(.constantVal "var", ⟨167, 171⟩),
                 (.constantVal "one", ⟨172, 176⟩)]
                ⟨167, 176⟩), none, ⟨163, 176⟩)]))
          ⟨145, 190⟩, none, ⟨135, 190⟩),
       (.defineInstr "Y" ⟨211, 212⟩ (.constantVal "X") ⟨213, 215⟩,
          none, ⟨203, 215⟩),
       (.defineInstr "Z" ⟨236, 237⟩ (.constantVal "Y") ⟨238, 240⟩,
          none, ⟨228, 240⟩),
       (.constant "X", none, ⟨254, 256⟩),
       (.constant "Y", none, ⟨269, 271⟩),
       (.constant "Z", none, ⟨284, 286⟩)] }

/-- Modelled from the spec: the decoding table `Architecture::decoding_table`
produces for the architecture `3x3 (U)` when no optimized table is attached —
for each register the decoded effect of its algorithm and of its inverse.
Register A is generated by U, whose chromatic order on its signature facelets
is 4; the generator U achieves offset 1 and its inverse achieves offset 3.
(The concrete 3x3 permutations live in the `puzzle_theory` crate, not under
`src/`.) -/
def archU : DecodingTable :=
  ⟨[4], [([1], ["U"]), ([3], ["U\x27"])]⟩

/-- Modelled from the spec: `strip_expanded` (`compiler/src/strip_expanded.rs`,
not under `src/`) lowers each expanded `add` on a real-puzzle register to an
`AddPuzzle` primitive carrying the puzzle index, the architecture (its
decoding table) and a one-entry effect list, and passes labels through.  For
the single-register program considered here the register always resolves to
register 0 of puzzle 0. -/
def stripExpanded (arch : DecodingTable) :
    List (ExpandedComponent × Span) →
    Option (List (OptimizingCodeComponent × Span))
  | [] => some []
  | (c, sp) :: rest =>
      match c with
      | .instrComp (.add amt amtSpan _) bid =>
          (stripExpanded arch rest).map
            (fun r =>
              (.instruction (.addPuzzle 0 arch [(0, (amt, amtSpan))]) bid, sp)
                :: r)
      | .labelComp l =>
          (stripExpanded arch rest).map (fun r => (.labelComp l, sp) :: r)
      | _ => none

/-- Modelled from the spec: after optimization each remaining `AddPuzzle` is
converted into a `PerformAlgorithm` whose algorithm `new_from_effect`
produces from the architecture's decoding table (`optimization/mod.rs`, not
under `src/`); the fuel is passed to the embedded `new_from_effect`. -/
def convertOptimized (fuel : Nat) :
    List (OptimizingCodeComponent × Span) →
    Option (List (ProgramInstruction × Span))
  | [] => some []
  | (c, sp) :: rest =>
      match c with
      | .instruction (.addPuzzle idx arch amts) _ =>
          match new_from_effect arch (amts.map (fun a => (a.1, a.2.1))) fuel with
          | none => none
          | some alg =>
              (convertOptimized fuel rest).map
                (fun r => (.performAlgorithm idx alg, sp) :: r)
      | .instruction (.performAlgorithm idx alg) _ =>
          (convertOptimized fuel rest).map
            (fun r => (.performAlgorithm idx alg, sp) :: r)
      | _ => none

/-- The optimized component list of the nested-define program: macro
expansion, then `strip_expanded`, then the `CoalesceAdds` rewriter from its
default (empty) state. -/
def optimizedC5 : Option (List (OptimizingCodeComponent × Span)) :=
  match expand parsedC5 with
  | some (.ok expanded) =>
      match stripExpanded archU expanded.components with
      | some stripped => CoalesceAdds.runRewriter ⟨none, [], []⟩ stripped
      | none => none
  | _ => none

/-- The compiled Q output of the nested-define program: the optimized
components converted to program instructions and emitted by `emit_q` (the
puzzle entry records the source slice `3x3` of the register declaration). -/
def compileC5 : Option (Except (List Diag) String) :=
  match optimizedC5 with
  | none => none
  | some coalesced =>
      match convertOptimized 10 coalesced with
      | none => none
      | some instrs =>
          emit_q ⟨[], [("3x3", ⟨47, 50⟩)], instrs⟩

/-- Split a character list at every occurrence of `c`. -/
def splitOnChar (c : Char) : List Char → List (List Char)
  | [] => [[]]
  | x :: xs =>
      match splitOnChar c xs with
      | [] => [[]]
      | l :: ls => if x = c then [] :: l :: ls else (x :: l) :: ls

/-- Whether `needle` is a prefix of `hay`. -/
def listIsPref : List Char → List Char → Bool
  | [], _ => true
  | _ :: _, [] => false
  | n :: ns, h :: hs => n = h && listIsPref ns hs

/-- Whether `needle` occurs inside `hay`. -/
def containsSub (needle : List Char) : List Char → Bool
  | [] => listIsPref needle []
  | h :: hs => listIsPref needle (h :: hs) || containsSub needle hs

/-- The number of lines of `s` in which `needle` occurs. -/
def linesWith (needle s : String) : Nat :=
  ((splitOnChar (Char.ofNat 10) s.data).filter
    (fun l => containsSub needle.data l)).length

end QterSpec

namespace QterSpec
set_option maxRecDepth 100000
set_option maxHeartbeats 4000000

theorem add_to_lt {s : TheoreticalState} (h : s.value < s.order)
    (amt : Nat) : (s.add_to amt).value < s.order := by
  have hpos : 0 < s.order := Nat.pos_of_ne_zero (by omega)
  have hm : amt % s.order < s.order := Nat.mod_lt _ hpos
  simp only [TheoreticalState.add_to]
  split <;> omega

theorem applyTheoreticalOp_lt {s : TheoreticalState} (h : s.value < s.order)
    (op : TheoreticalOp) : (applyTheoreticalOp s op).value < s.order := by
  cases op with
  | addTo amt => exact add_to_lt h amt
  | addToI amt => exact add_to_lt h _
  | zeroOut => simpa [TheoreticalState.zero_out] using Nat.lt_of_le_of_lt (Nat.zero_le _) h

theorem applyTheoreticalOp_order (s : TheoreticalState) (op : TheoreticalOp) :
    (applyTheoreticalOp s op).order = s.order := by
  cases op <;> rfl

theorem runTheoreticalOps_lt {s : TheoreticalState} (h : s.value < s.order)
    (ops : List TheoreticalOp) : (runTheoreticalOps s ops).value < s.order := by
  induction ops generalizing s with
  | nil => exact h
  | cons op rest ih =>
      have h' := applyTheoreticalOp_lt h op
      have horder := applyTheoreticalOp_order s op
      have := ih (s := applyTheoreticalOp s op) (by rw [horder]; exact h')
      rw [horder] at this
      simpa [runTheoreticalOps] using this

/-! ### Correctness of the halt loop -/

theorem lengthOfSubstringAux_pos :
    ∀ (colors found : List String) (i crl : Nat), 0 < crl →
      0 < lengthOfSubstringAux colors found i crl := by
  intro colors
  induction colors with
  | nil => intro found i crl h; simpa [lengthOfSubstringAux] using h
  | cons c rest ih =>
      intro found i crl h
      simp only [lengthOfSubstringAux]
      split
      · exact ih _ _ _ (Nat.succ_pos i)
      · exact ih _ _ _ h

theorem length_of_substring_pos (colors : List String) :
    0 < length_of_substring_that_this_string_is_n_repeated_copies_of colors := by
  unfold length_of_substring_that_this_string_is_n_repeated_copies_of
  have hcrl := lengthOfSubstringAux_pos colors [] 0 1 Nat.one_pos
  simp only []
  split
  · rename_i h
    rcases Nat.eq_zero_or_pos colors.length with hz | hp
    · exact absurd (by simp [hz]) h
    · exact hp
  · exact hcrl

theorem getD_pos_of_forall_pos {l : List Nat} (h : ∀ x ∈ l, 0 < x) (i : Nat) :
    0 < l.getD i 1 := by
  rw [List.getD_eq_getElem?_getD]
  cases hg : l[i]? with
  | none => simp
  | some v =>
      have hv : v ∈ l := by
        rcases List.getElem?_eq_some.1 hg with ⟨hb, rfl⟩
        exact List.getElem_mem hb
      simpa using h v hv

theorem set_forall_pos {l : List Nat} (h : ∀ x ∈ l, 0 < x) {v : Nat}
    (hv : 0 < v) (i : Nat) : ∀ x ∈ l.set i v, 0 < x := by
  intro x hx
  rcases List.mem_or_eq_of_mem_set hx with hmem | rfl
  · exact h x hmem
  · exact hv

theorem foldl_set_forall_pos (c : List Nat) {ord : Nat} (hord : 0 < ord) :
    ∀ (out : List Nat), (∀ x ∈ out, 0 < x) →
      ∀ x ∈ c.foldl (fun o f => o.set f ord) out, 0 < x := by
  induction c with
  | nil => intro out h; simpa using h
  | cons f rest ih =>
      intro out h
      exact ih _ (set_forall_pos h hord f)

theorem chromatic_orders_pos (p : List Nat) (colors : List String) (i : Nat) :
    0 < (chromatic_orders_by_facelets p colors).getD i 1 := by
  apply getD_pos_of_forall_pos
  unfold chromatic_orders_by_facelets
  generalize permCycles p = cycles
  have base : ∀ x ∈ List.replicate colors.length (1 : Nat), 0 < x := by
    intro x hx
    rcases List.eq_of_mem_replicate hx with rfl
    exact Nat.one_pos
  generalize List.replicate colors.length (1 : Nat) = init at base ⊢
  induction cycles generalizing init with
  | nil => simpa using base
  | cons c rest ih =>
      simp only [List.foldl_cons]
      exact ih _ (foldl_set_forall_pos c (length_of_substring_pos _) init base)

theorem foldl_lcm_pos (l : List Nat) :
    ∀ (acc : Nat), 0 < acc → (∀ x ∈ l, 0 < x) → 0 < l.foldl Nat.lcm acc := by
  induction l with
  | nil => intro acc hacc _; simpa using hacc
  | cons a rest ih =>
      intro acc hacc hall
      simp only [List.foldl_cons]
      exact ih _ (Nat.lcm_pos hacc (hall a (List.mem_cons_self a rest)))
        (fun x hx => hall x (List.mem_cons_of_mem a hx))

theorem haltOrder_pos (colors : List String) (g facelets : List Nat) :
    0 < RobotState.haltOrder colors g facelets := by
  unfold RobotState.haltOrder lcmList
  apply foldl_lcm_pos _ _ Nat.one_pos
  intro x hx
  rcases List.mem_map.1 hx with ⟨j, _, rfl⟩
  exact chromatic_orders_pos _ _ _

theorem find?_range_eq_some :
    ∀ (n : Nat) (p : Nat → Bool) (j : Nat),
      ((List.range n).find? p = some j ↔
        j < n ∧ p j = true ∧ ∀ m, m < j → p m = false) := by
  intro n
  induction n with
  | zero => intro p j; simp
  | succ n ih =>
      intro p j
      rw [List.range_succ_eq_map]
      by_cases h0 : p 0
      · rw [List.find?_cons_of_pos _ h0]
        constructor
        · intro h
          rcases Option.some.inj h with rfl
          exact ⟨Nat.succ_pos n, h0, fun m hm => absurd hm (by omega)⟩
        · rintro ⟨hj, hpj, hleast⟩
          have hj0 : j = 0 := by
            by_contra hne
            have := hleast 0 (Nat.pos_of_ne_zero hne)
            rw [this] at h0
            exact Bool.noConfusion h0
          subst hj0; rfl
      · rw [List.find?_cons_of_neg _ h0, List.find?_map]
        constructor
        · intro h
          rcases Option.map_eq_some'.1 h with ⟨j', hj', rfl⟩
          rcases (ih (p ∘ Nat.succ) j').1 hj' with ⟨hlt, hpj, hleast⟩
          refine ⟨by omega, hpj, ?_⟩
          intro m hm
          cases m with
          | zero => exact Bool.eq_false_iff.2 h0
          | succ m => exact hleast m (by omega)
        · rintro ⟨hj, hpj, hleast⟩
          cases j with
          | zero => exact absurd hpj h0
          | succ j' =>
              have hfind : (List.range n).find? (p ∘ Nat.succ) = some j' :=
                (ih (p ∘ Nat.succ) j').2
                  ⟨by omega, hpj, fun m hm => hleast (m + 1) (by omega)⟩
              rw [hfind]; rfl

theorem haltAux_eq_find {σ : Type} (stepf : σ → σ) (solved : σ → Bool)
    (order : Nat) :
    ∀ (fuel : Nat) (s : σ) (sum : Nat), 0 < fuel → order = sum + fuel →
      RobotState.haltAux stepf solved order fuel s sum =
        (match (List.range fuel).find? (fun j => solved (stepf^[j] s)) with
         | some j => some (sum + j)
         | none => none) := by
  intro fuel
  induction fuel with
  | zero => intro s sum h; omega
  | succ f ih =>
      intro s sum _ horder
      by_cases hs : solved s
      · have h0 : (fun j => solved (stepf^[j] s)) 0 = true := by
          simpa using hs
        rw [List.range_succ_eq_map, RobotState.haltAux,
          List.find?_cons_of_pos (p := fun j => solved (stepf^[j] s)) _ h0,
          if_pos hs]
        simp
      · have h0 : ¬ (fun j => solved (stepf^[j] s)) 0 = true := by
          simpa using hs
        rw [List.range_succ_eq_map, RobotState.haltAux, if_neg hs,
          List.find?_cons_of_neg (p := fun j => solved (stepf^[j] s)) _ h0,
          List.find?_map]
        by_cases hf0 : f = 0
        · subst hf0
          rw [if_pos (by omega)]
          simp
        · rw [if_neg (by omega), ih (stepf s) (sum + 1) (Nat.pos_of_ne_zero hf0)
            (by omega)]
          have hcomp : (fun j => solved (stepf^[j] (stepf s))) =
              ((fun j => solved (stepf^[j] s)) ∘ (· + 1)) := by
            funext j
            simp [Function.comp, Function.iterate_succ_apply]
          rw [hcomp]
          cases (List.range f).find? ((fun j => solved (stepf^[j] s)) ∘ (· + 1)) with
          | none => rfl
          | some j =>
              simp only [Option.map_some']
              congr 1
              omega

/-- C8: `RobotState::halt` (also implementing `repeat_until`) repeatedly
composes the inverse generator, counting; it returns `some k` exactly when
`k` is the number of compositions needed to make the facelets solved (the
first solving count), with `k` strictly below the LCM of the chromatic
orders of the given facelets (as the code computes them, on the composed
inverse generator), and returns `none` exactly when no count below that LCM
solves the facelets. -/
theorem robot_halt_counts_until_solved (colors : List String)
    (g facelets p : List Nat) :
    (∀ k, RobotState.halt colors g facelets p = some k ↔
        (k < RobotState.haltOrder colors g facelets ∧
         faceletsSolved colors ((fun q => composePerm q (invPerm g))^[k] p)
           facelets = true ∧
         ∀ m, m < k →
           faceletsSolved colors ((fun q => composePerm q (invPerm g))^[m] p)
             facelets = false)) ∧
    (RobotState.halt colors g facelets p = none ↔
        ∀ m, m < RobotState.haltOrder colors g facelets →
          faceletsSolved colors ((fun q => composePerm q (invPerm g))^[m] p)
            facelets = false) := by
  have hpos := haltOrder_pos colors g facelets
  set L := RobotState.haltOrder colors g facelets with hLdef
  set P : Nat → Bool := fun j =>
    faceletsSolved colors ((fun q => composePerm q (invPerm g))^[j] p) facelets
    with hPdef
  have hrw : RobotState.halt colors g facelets p =
      (match (List.range L).find? P with
       | some j => some (0 + j)
       | none => none) := by
    unfold RobotState.halt
    exact haltAux_eq_find _ _ L L p 0 hpos (by omega)
  rcases hfind : (List.range L).find? P with _ | j
  · have hnone := List.find?_eq_none.1 hfind
    constructor
    · intro k
      rw [hrw, hfind]
      constructor
      · intro h; exact absurd h (by simp)
      · rintro ⟨hkL, hPk, _⟩
        exact absurd (show P k = true from hPk) (hnone k (List.mem_range.2 hkL))
    · rw [hrw, hfind]
      constructor
      · intro _ m hm
        have := hnone m (List.mem_range.2 hm)
        simpa using this
      · intro _; rfl
  · rcases (find?_range_eq_some L P j).1 hfind with ⟨hjL, hPj, hleast⟩
    constructor
    · intro k
      rw [hrw, hfind]
      simp only [Nat.zero_add]
      constructor
      · intro h
        rcases Option.some.inj h with rfl
        exact ⟨hjL, hPj, hleast⟩
      · rintro ⟨hkL, hPk, hkleast⟩
        have hkj : k = j := by
          rcases Nat.lt_trichotomy k j with hlt | heq | hgt
          · have hPk' : P k = true := hPk
            rw [hleast k hlt] at hPk'
            exact absurd hPk' (by simp)
          · exact heq
          · have hPj' : P j = false := hkleast j hgt
            rw [hPj'] at hPj
            exact absurd hPj (by simp)
        rw [hkj]
    · rw [hrw, hfind]
      constructor
      · intro h; exact absurd h (by simp)
      · intro hall
        have hPj' : P j = false := hall j hjL
        rw [hPj'] at hPj
        exact absurd hPj (by simp)

/-! ### The constructor's cycle check -/

theorem indegree_cons (e : Nat × Nat) (rest : List (Nat × Nat)) (i : Nat) :
    indegree (e :: rest) i = (if e.2 = i then 1 else 0) + indegree rest i := by
  simp only [indegree, List.filter_cons]
  by_cases h : e.2 = i
  · simp [h, Nat.add_comm]
  · simp [h]

theorem foldl_count_getD (edges : List (Nat × Nat)) :
    ∀ (c : List Nat) (i : Nat), i < c.length → (∀ e ∈ edges, e.2 < c.length) →
      (edges.foldl (fun c e => c.set e.2 (c.getD e.2 0 + 1)) c).getD i 0 =
        c.getD i 0 + indegree edges i := by
  induction edges with
  | nil => intro c i _ _; simp [indegree]
  | cons e rest ih =>
      intro c i hi hrange
      simp only [List.foldl_cons]
      have hlen : (c.set e.2 (c.getD e.2 0 + 1)).length = c.length := by simp
      rw [ih _ i (by rw [hlen]; exact hi)
        (fun e' he' => by rw [hlen]; exact hrange e' (List.mem_cons_of_mem _ he'))]
      rw [indegree_cons]
      by_cases hei : e.2 = i
      · subst hei
        have he2 : e.2 < c.length := hrange e (List.mem_cons_self e rest)
        rw [show (c.set e.2 (c.getD e.2 0 + 1)).getD e.2 0 = c.getD e.2 0 + 1 from by
          simp [List.getD_eq_getElem?_getD, List.getElem?_set_self', he2]]
        simp [Nat.add_assoc, Nat.add_comm, Nat.add_left_comm]
      · rw [show (c.set e.2 (c.getD e.2 0 + 1)).getD i 0 = c.getD i 0 from by
          simp [List.getD_eq_getElem?_getD, List.getElem?_set_ne hei]]
        simp [hei, Nat.add_assoc, Nat.add_comm, Nat.add_left_comm]

theorem buildCount_getD (n : Nat) (edges : List (Nat × Nat)) (i : Nat)
    (hi : i ≤ n) (hrange : ∀ e ∈ edges, e.2 ≤ n) :
    (AllTopologicalSorts.buildCount n edges).getD i 0 = indegree edges i := by
  unfold AllTopologicalSorts.buildCount
  rw [foldl_count_getD edges _ i (by simp; omega)
    (fun e he => by simp; exact Nat.lt_succ_of_le (hrange e he))]
  simp only [List.getD_eq_getElem?_getD, List.getElem?_replicate]
  split <;> simp

/-! ### Cache coherence of the remote-robot client -/

theorem stepWorld_cache_coherent {w : RemoteWorld} {e : RobotEvent}
    (hw : ∀ p, w.cache = some p → p = w.server)
    (he : e ≠ .solveCmd false) :
    ∀ p, (stepWorld w e).1.cache = some p → p = (stepWorld w e).1.server := by
  cases e with
  | composeInto alg ok => intro p hp; simp [stepWorld] at hp
  | takePicture ok =>
      intro p hp
      cases hc : w.cache with
      | some q =>
          have hq := hw q hc
          simp only [stepWorld, hc] at hp ⊢
          rw [← Option.some.inj hp]
          exact hq
      | none =>
          simp only [stepWorld, hc] at hp ⊢
          cases ok with
          | true =>
              simp only [if_true, reduceIte] at hp ⊢
              exact (Option.some.inj hp).symm
          | false =>
              simp only [Bool.false_eq_true, reduceIte] at hp
              rw [hc] at hp
              exact Option.noConfusion hp
  | solveCmd ok =>
      cases ok with
      | true => intro p hp; simp [stepWorld] at hp ⊢; simp [hp]
      | false => exact absurd rfl he

theorem runWorld_cache_coherent (events : List RobotEvent) :
    ∀ (w : RemoteWorld), (∀ p, w.cache = some p → p = w.server) →
      (∀ e ∈ events, e ≠ .solveCmd false) →
      ∀ p, (runWorld w events).cache = some p → p = (runWorld w events).server := by
  induction events with
  | nil => intro w hw _; exact hw
  | cons e rest ih =>
      intro w hw hok
      have hstep := stepWorld_cache_coherent hw (hok e (List.mem_cons_self e rest))
      exact ih _ hstep (fun e' he' => hok e' (List.mem_cons_of_mem e he'))

theorem new_eq (n : Nat) (edges : List (Nat × Nat)) :
    AllTopologicalSorts.new n edges =
      (if ((List.range' 1 n).filter
            (fun i => (AllTopologicalSorts.buildCount n edges).getD i 0 = 0)).isEmpty
          ∧ n ≠ 0 then
        none
      else
        some
          { n := n
            successors := AllTopologicalSorts.buildSuccessors n edges
            count := AllTopologicalSorts.buildCount n edges
            available := (List.range' 1 n).filter
              (fun i => (AllTopologicalSorts.buildCount n edges).getD i 0 = 0)
            bases := [], current := [], done := false }) := rfl

/-! ## Claim-level theorems -/

/-- C1: the claim says the iterator emits *every* linear extension of every
DAG over nodes `1..=N` exactly once; the code itself accepts the empty graph
(`N = 0`, the assert allows it), yet its iterator emits no order at all,
while the empty order is the unique linear extension of that graph.  This
theorem evaluates the code at that failing input. -/
theorem topo_iterator_misses_empty_graph_extension :
    (AllTopologicalSorts.new 0 []).map (AllTopologicalSorts.runIter 10) =
      some (some []) ∧
    linearExtensions 0 [] = [[]] ∧
    some (some ([] : List (List Nat))) ≠
      some (some (linearExtensions 0 [])) := by decide

/-- C3: the greedy repeat-length scan returns 6 on the color word
`A B A A B A`, although that word is two whole copies of its length-3 prefix
(and of no shorter prefix), so the function does not return the length of
the shortest prefix the word is a whole number of repeated copies of. -/
theorem substring_length_not_shortest_on_abaaba :
    length_of_substring_that_this_string_is_n_repeated_copies_of
      ["A", "B", "A", "A", "B", "A"] = 6 ∧
    IsRepetitionLength ["A", "B", "A", "A", "B", "A"] 3 ∧
    (∀ d, d < 3 → ¬ IsRepetitionLength ["A", "B", "A", "A", "B", "A"] d) := by
  refine ⟨by decide, by decide, ?_⟩
  decide

/-- C7 (counterexample): the graph `[2→3, 3→2]` over 3 nodes is cyclic (it
has no linear extension at all), yet the constructor does not panic, because
node 1 has in-degree 0. -/
theorem cyclic_graph_accepted_by_new :
    linearExtensions 3 [(2, 3), (3, 2)] = [] ∧
    (AllTopologicalSorts.new 3 [(2, 3), (3, 2)]).isSome = true := by decide

/-- C7 (amended): `AllTopologicalSorts::new` panics with `Cycle detected`
iff the graph is nonempty and *no* node of `1..=n` has in-degree 0 — a
condition every cyclic graph over exactly those nodes with an additional
source or isolated node escapes.  In particular `[1→2, 2→3, 3→1]` panics
(see the witness). -/
theorem new_panics_iff_no_indegree_zero (n : Nat) (edges : List (Nat × Nat))
    (hrange : ∀ e ∈ edges, e.2 ≤ n) :
    AllTopologicalSorts.new n edges = none ↔
      n ≠ 0 ∧ ∀ i, 1 ≤ i → i ≤ n → 0 < indegree edges i := by
  rw [new_eq]
  have hiff : ((List.range' 1 n).filter
      (fun i => (AllTopologicalSorts.buildCount n edges).getD i 0 = 0)).isEmpty
        = true ↔ ∀ i, 1 ≤ i → i ≤ n → 0 < indegree edges i := by
    rw [List.isEmpty_iff, List.filter_eq_nil_iff]
    constructor
    · intro h i h1 h2
      have hmem : i ∈ List.range' 1 n := List.mem_range'_1.2 ⟨h1, by omega⟩
      have hni := h i hmem
      simp only [decide_eq_true_eq] at hni
      rw [buildCount_getD n edges i h2 hrange] at hni
      omega
    · intro h i hmem
      rcases List.mem_range'_1.1 hmem with ⟨h1, h2⟩
      simp only [decide_eq_true_eq]
      rw [buildCount_getD n edges i (by omega) hrange]
      have := h i h1 (by omega)
      omega
  split
  · rename_i hcond
    simp only [true_iff]
    exact ⟨hcond.2, hiff.1 hcond.1⟩
  · rename_i hcond
    constructor
    · intro habs; exact Option.noConfusion habs
    · intro hrhs
      exact absurd ⟨hiff.2 hrhs.2, hrhs.1⟩ hcond

/-- Witness for the amended C7 theorem: the concrete cycle `[1→2, 2→3, 3→1]`
from the spec's scenario panics at construction. -/
theorem new_panics_iff_no_indegree_zero_witness :
    AllTopologicalSorts.new 3 [(1, 2), (2, 3), (3, 1)] = none :=
  (new_panics_iff_no_indegree_zero 3 [(1, 2), (2, 3), (3, 1)] (by decide)).2
    (by decide)

/-- C9 (counterexample): `RemoteRobot::solve` stores
`Some(Permutation::identity())` into the cache *before* awaiting the
server's acknowledgement, so after a compose of the swap `(0 1)` followed by
a failed `!SOLVE`, the cache holds the identity while the server still holds
the swap: the cached permutation does not equal the state the server would
report. -/
theorem remote_cache_stale_after_failed_solve :
    (runWorld initWorld
        [.composeInto [1, 0] true, .solveCmd false]).cache = some [] ∧
    (runWorld initWorld
        [.composeInto [1, 0] true, .solveCmd false]).server = [1, 0] ∧
    permApply [] 0 ≠ permApply [1, 0] 0 := by decide

/-- C9 (amended): the client invalidates the cache on every `compose_into`
(so the next `take_picture` sends `!PICTURE`), a repeated `take_picture`
answers from the cache without sending a command, and whenever the trace
contains no *failed* `solve`, a filled cache always equals the state the
server would report. -/
theorem remote_cache_amended :
    (∀ (w : RemoteWorld) (alg : List Nat) (ok : Bool),
      (stepWorld w (.composeInto alg ok)).1.cache = none ∧
      (stepWorld (stepWorld w (.composeInto alg ok)).1 (.takePicture true)).2.1
        = true) ∧
    (∀ (w : RemoteWorld) (q : List Nat), w.cache = some q →
      stepWorld w (.takePicture true) = (w, false, some q)) ∧
    (∀ (events : List RobotEvent), (∀ e ∈ events, e ≠ .solveCmd false) →
      ∀ p, (runWorld initWorld events).cache = some p →
        p = (runWorld initWorld events).server) := by
  refine ⟨?_, ?_, ?_⟩
  · intro w alg ok
    exact ⟨rfl, rfl⟩
  · intro w q hq
    simp [stepWorld, hq]
  · intro events hok
    exact runWorld_cache_coherent events initWorld (by intro p hp; simp [initWorld] at hp) hok

/-- Witness for the amended C9 theorem at a concrete trace. -/
theorem remote_cache_amended_witness :
    (∀ e ∈ [RobotEvent.composeInto [1, 0] true, RobotEvent.takePicture true],
      e ≠ RobotEvent.solveCmd false) ∧
    (∀ p, (runWorld initWorld
        [RobotEvent.composeInto [1, 0] true, RobotEvent.takePicture true]).cache
          = some p →
      p = (runWorld initWorld
        [RobotEvent.composeInto [1, 0] true, RobotEvent.takePicture true]).server) :=
  ⟨by decide,
    remote_cache_amended.2.2
      [RobotEvent.composeInto [1, 0] true, RobotEvent.takePicture true]
      (by decide)⟩

/-- C10: starting from value 0 with a positive order, every sequence of
`add_to`, `add_to_i` and `zero_out` calls keeps `value()` strictly below
`order()`. -/
theorem theoretical_state_invariant (order : Nat) (h : 0 < order)
    (ops : List TheoreticalOp) :
    (runTheoreticalOps ⟨0, order⟩ ops).value < order :=
  runTheoreticalOps_lt (s := ⟨0, order⟩) h ops

/-- Witness for C10 at a concrete operation sequence. -/
theorem theoretical_state_invariant_witness :
    0 < 3 ∧
    (runTheoreticalOps ⟨0, 3⟩
      [.addTo 5, .addToI (-7), .addTo 2, .zeroOut, .addToI 4]).value < 3 :=
  ⟨by decide,
    theoretical_state_invariant 3 (by decide)
      [.addTo 5, .addToI (-7), .addTo 2, .zeroOut, .addToI 4]⟩

/-! ### Properties of `closest_alg` -/

theorem keyLe_refl : ∀ (k : List Nat), keyLe k k = true
  | [] => rfl
  | a :: as => by simp [keyLe, keyLe_refl as]

theorem keyLe_antisymm :
    ∀ (a b : List Nat), a.length = b.length → keyLe a b = true →
      keyLe b a = true → a = b
  | [], [], _, _, _ => rfl
  | [], _ :: _, h, _, _ => by simp at h
  | _ :: _, [], h, _, _ => by simp at h
  | x :: xs, y :: ys, hlen, hxy, hyx => by
      simp only [keyLe] at hxy hyx
      by_cases hx : x < y
      · rw [if_neg (by omega), if_pos hx] at hyx
        exact Bool.noConfusion hyx
      · by_cases hy : y < x
        · rw [if_neg (by omega), if_pos hy] at hxy
          exact Bool.noConfusion hxy
        · rw [if_neg hx, if_neg hy] at hxy
          rw [if_neg hy, if_neg hx] at hyx
          have : x = y := by omega
          subst this
          rw [keyLe_antisymm xs ys (by simpa using hlen) hxy hyx]

theorem torusDist_self : ∀ (k o : List Nat), torusDist k k o = 0
  | [], _ => rfl
  | _ :: _, [] => rfl
  | a :: as, o :: os => by
      simp [torusDist, natAbsDiff, torusDist_self as os]

theorem updateClosest_zero (orders target : List Nat) (k0 : List Nat)
    (a0 : List String) (a : List Nat) (al : List String) :
    DecodingTable.updateClosest orders target (some (0, k0, a0)) a al =
      (some (0, k0, a0), 0) := by
  simp [DecodingTable.updateClosest]

theorem closestLoop_keeps_zero (orders target : List Nat) (k0 : List Nat)
    (a0 : List String) :
    ∀ (fuel : Nat) (sr er : List (List Nat × List String)) (ts te : Bool)
      (amt len : Nat), len ≤ sr.length + amt → len ≤ er.length + amt →
      DecodingTable.closestLoop orders target fuel sr er ts te amt len
        (some (0, k0, a0)) = some (some (0, k0, a0)) := by
  intro fuel
  induction fuel with
  | zero => intros; rfl
  | succ f ih =>
      intro sr er ts te amt len hsr her
      simp only [DecodingTable.closestLoop]
      by_cases hcond : (te = true ∨ ts = true) ∧ amt < len
      · rw [if_pos hcond]
        cases ts with
        | false =>
            cases te with
            | false => rcases hcond.1 with h | h <;> exact Bool.noConfusion h
            | true =>
                rcases er with _ | ⟨⟨a, al⟩, er'⟩
                · exfalso
                  have := hcond.2
                  simp only [List.length_nil] at her
                  omega
                · simp only [Bool.false_eq_true, if_false, if_true,
                    updateClosest_zero]
                  exact ih sr er' false _ (amt + 1) len (by omega)
                    (by simp at her ⊢; omega)
        | true =>
            rcases sr with _ | ⟨⟨a, al⟩, sr'⟩
            · exfalso
              have := hcond.2
              simp only [List.length_nil] at hsr
              omega
            · cases te with
              | false =>
                  simp only [Bool.false_eq_true, if_false, if_true,
                    updateClosest_zero]
                  exact ih sr' er _ false (amt + 1) len
                    (by simp at hsr ⊢; omega) (by omega)
              | true =>
                  rcases er with _ | ⟨⟨b, bl⟩, er'⟩
                  · exfalso
                    have := hcond.2
                    simp only [List.length_nil] at her
                    omega
                  · simp only [if_true, updateClosest_zero]
                    exact ih sr' er' _ _ (amt + 1 + 1) len
                      (by simp at hsr ⊢; omega) (by simp at her ⊢; omega)
      · rw [if_neg hcond]

theorem updateClosest_fst (orders target : List Nat)
    (closest : Option (Nat × List Nat × List String)) (a : List Nat)
    (al : List String) :
    (DecodingTable.updateClosest orders target closest a al).1 = closest ∨
    (DecodingTable.updateClosest orders target closest a al).1 =
      some (torusDist a target orders, a, al) := by
  unfold DecodingTable.updateClosest
  cases closest with
  | none => right; rfl
  | some c =>
      rcases c with ⟨d, k, b⟩
      by_cases h : torusDist a target orders < d
      · right; simp [h]
      · left; simp [h]

theorem closestLoop_mem (orders target : List Nat)
    (tbl : List (List Nat × List String)) :
    ∀ (fuel : Nat) (sr er : List (List Nat × List String)) (ts te : Bool)
      (amt len : Nat) (closest : Option (Nat × List Nat × List String))
      (r : Nat × List Nat × List String),
      (∀ e ∈ sr, e ∈ tbl) → (∀ e ∈ er, e ∈ tbl) →
      (∀ d k a, closest = some (d, k, a) → (k, a) ∈ tbl) →
      DecodingTable.closestLoop orders target fuel sr er ts te amt len closest
        = some (some r) →
      (r.2.1, r.2.2) ∈ tbl := by
  intro fuel
  induction fuel with
  | zero =>
      intro sr er ts te amt len closest r _ _ hc hrun
      simp only [DecodingTable.closestLoop] at hrun
      rcases Option.some.inj hrun with rfl
      exact hc _ _ _ rfl
  | succ f ih =>
      intro sr er ts te amt len closest r hsr her hc hrun
      have hdrawn :
          ∀ (cl : Option (Nat × List Nat × List String)) (a : List Nat)
            (al : List String) (c1 : Option (Nat × List Nat × List String))
            (m1 : Nat),
            (∀ d k b, cl = some (d, k, b) → (k, b) ∈ tbl) → (a, al) ∈ tbl →
            DecodingTable.updateClosest orders target cl a al = (c1, m1) →
            (∀ d k b, c1 = some (d, k, b) → (k, b) ∈ tbl) := by
        intro cl a al c1 m1 hcl hmem hup d k b hk
        rcases updateClosest_fst orders target cl a al with hu | hu
        · rw [hup] at hu
          have hu' : c1 = cl := hu
          exact hcl d k b (hu' ▸ hk)
        · rw [hup] at hu
          have hu' : c1 = some (torusDist a target orders, a, al) := hu
          rw [hu'] at hk
          rcases Option.some.inj hk with ⟨_, rfl, rfl⟩
          exact hmem
      simp only [DecodingTable.closestLoop] at hrun
      by_cases hcond : (te = true ∨ ts = true) ∧ amt < len
      · rw [if_pos hcond] at hrun
        cases ts with
        | false =>
            cases te with
            | false => rcases hcond.1 with h | h <;> exact Bool.noConfusion h
            | true =>
                rcases er with _ | ⟨⟨a, al⟩, er'⟩
                · simp only [Bool.false_eq_true, if_false, if_true] at hrun
                  exact Option.noConfusion hrun
                · rcases hup : DecodingTable.updateClosest orders target
                    closest a al with ⟨c1, m1⟩
                  simp only [Bool.false_eq_true, if_false, if_true, hup]
                    at hrun
                  exact ih sr er' false _ (amt + 1) len c1 r hsr
                    (fun e he => her e (List.mem_cons_of_mem _ he))
                    (hdrawn closest a al c1 m1 hc
                      (her _ (List.mem_cons_self _ _)) hup)
                    hrun
        | true =>
            rcases sr with _ | ⟨⟨a, al⟩, sr'⟩
            · simp only [if_true] at hrun
              exact Option.noConfusion hrun
            · rcases hup : DecodingTable.updateClosest orders target
                closest a al with ⟨c1, m1⟩
              have hc1 := hdrawn closest a al c1 m1 hc
                (hsr _ (List.mem_cons_self _ _)) hup
              cases te with
              | false =>
                  simp only [Bool.false_eq_true, if_false, if_true, hup]
                    at hrun
                  exact ih sr' er _ false (amt + 1) len c1 r
                    (fun e he => hsr e (List.mem_cons_of_mem _ he)) her hc1
                    hrun
              | true =>
                  rcases er with _ | ⟨⟨b, bl⟩, er'⟩
                  · simp only [if_true, hup] at hrun
                    exact Option.noConfusion hrun
                  · rcases hup2 : DecodingTable.updateClosest orders target
                      c1 b bl with ⟨c2, m2⟩
                    have hc2 := hdrawn c1 b bl c2 m2 hc1
                      (her _ (List.mem_cons_self _ _)) hup2
                    simp only [if_true, hup, hup2] at hrun
                    exact ih sr' er' _ _ (amt + 1 + 1) len c2 r
                      (fun e he => hsr e (List.mem_cons_of_mem _ he))
                      (fun e he => her e (List.mem_cons_of_mem _ he)) hc2
                      hrun
      · rw [if_neg hcond] at hrun
        rcases Option.some.inj hrun with rfl
        exact hc _ _ _ rfl

theorem sorted_filter_getLast (target : List Nat) (alg : List String) :
    ∀ (tbl : List (List Nat × List String)),
      tbl.Pairwise (fun a b => keyLe a.1 b.1 = true ∧ a.1 ≠ b.1) →
      (∀ e ∈ tbl, e.1.length = target.length) →
      (target, alg) ∈ tbl →
      (tbl.filter (fun e => keyLe e.1 target)).getLast? = some (target, alg) := by
  intro tbl
  induction tbl with
  | nil => intro _ _ hmem; exact absurd hmem (List.not_mem_nil _)
  | cons e rest ih =>
      intro hsorted hlen hmem
      rcases List.pairwise_cons.1 hsorted with ⟨hall, hrest⟩
      by_cases hkey : e.1 = target
      · have he : e = (target, alg) := by
          rcases List.mem_cons.1 hmem with h | h
          · exact h.symm
          · exfalso
            exact (hall _ h).2 hkey
        subst he
        rw [List.filter_cons_of_pos (by simpa using keyLe_refl target)]
        have hnil : rest.filter (fun e => keyLe e.1 target) = [] := by
          rw [List.filter_eq_nil_iff]
          intro b hb
          have hb' := hall b hb
          simp only [Bool.not_eq_true]
          by_contra habs
          have hband : keyLe b.1 target = true := by
            cases hfact : keyLe b.1 target with
            | true => rfl
            | false => exact absurd hfact habs
          have := keyLe_antisymm b.1 target
            (by rw [hlen b (List.mem_cons_of_mem _ hb)])
            hband (by simpa [hkey] using hb'.1)
          exact hb'.2 (by rw [hkey, ← this])
        rw [hnil]
        rfl
      · have hmem' : (target, alg) ∈ rest := by
          rcases List.mem_cons.1 hmem with h | h
          · exact absurd (congrArg Prod.fst h.symm) hkey
          · exact h
        have hfil := ih hrest (fun b hb => hlen b (List.mem_cons_of_mem _ hb))
          hmem'
        have hpred : keyLe e.1 target = true := (hall _ hmem').1
        rw [List.filter_cons_of_pos (by simpa using hpred)]
        rcases hl : rest.filter (fun e => keyLe e.1 target) with _ | ⟨x, xs⟩
        · rw [hl] at hfil
          exact Option.noConfusion hfil
        · rw [hl] at hfil
          rw [hl, List.getLast?_cons_cons]
          exact hfil

theorem closest_alg_eq (t : DecodingTable) (target : List Nat) :
    DecodingTable.closest_alg t target =
      (match DecodingTable.closestLoop t.orders target (t.table.length + 1)
          ((t.table.filter (fun e => keyLe e.1 target)).reverse ++
            t.table.reverse)
          (t.table.filter (fun e => keyLe target e.1) ++ t.table)
          true true 0 t.table.length none with
       | some (some (_, k, alg)) => some (k, alg)
       | _ => none) := rfl

theorem closest_alg_mem (orders : List Nat)
    (tbl : List (List Nat × List String)) (target : List Nat)
    (r : List Nat × List String)
    (h : DecodingTable.closest_alg ⟨orders, tbl⟩ target = some r) : r ∈ tbl := by
  rw [closest_alg_eq] at h
  rcases hloop : DecodingTable.closestLoop orders target (tbl.length + 1)
      ((tbl.filter (fun e => keyLe e.1 target)).reverse ++ tbl.reverse)
      (tbl.filter (fun e => keyLe target e.1) ++ tbl)
      true true 0 tbl.length none with _ | c
  · rw [hloop] at h
    exact Option.noConfusion h
  · rcases c with _ | ⟨d, k, a⟩
    · rw [hloop] at h
      exact Option.noConfusion h
    · rw [hloop] at h
      rcases Option.some.inj h with rfl
      exact closestLoop_mem orders target tbl (tbl.length + 1) _ _ true true
        0 tbl.length none (d, k, a)
        (by
          intro e he
          rcases List.mem_append.1 he with h' | h'
          · exact List.mem_of_mem_filter (List.mem_reverse.1 h')
          · exact List.mem_reverse.1 h')
        (by
          intro e he
          rcases List.mem_append.1 he with h' | h'
          · exact List.mem_of_mem_filter h'
          · exact h')
        (by intro _ _ _ habs; exact Option.noConfusion habs)
        hloop

theorem closest_alg_exact (orders : List Nat)
    (tbl : List (List Nat × List String)) (target : List Nat)
    (alg : List String)
    (hsorted : tbl.Pairwise (fun a b => keyLe a.1 b.1 = true ∧ a.1 ≠ b.1))
    (hlen : ∀ e ∈ tbl, e.1.length = target.length)
    (hmem : (target, alg) ∈ tbl) :
    DecodingTable.closest_alg ⟨orders, tbl⟩ target = some (target, alg) := by
  have hgetLast := sorted_filter_getLast target alg tbl hsorted hlen hmem
  have hhead : ((tbl.filter (fun e => keyLe e.1 target)).reverse).head? =
      some (target, alg) := by
    rw [List.head?_reverse]
    exact hgetLast
  rcases hrev : (tbl.filter (fun e => keyLe e.1 target)).reverse
    with _ | ⟨x, sr0⟩
  · rw [hrev] at hhead
    exact Option.noConfusion hhead
  have hx : x = (target, alg) := by
    rw [hrev] at hhead
    exact Option.some.inj hhead
  subst hx
  have htot : 0 < tbl.length := by
    cases tbl with
    | nil => exact absurd hmem (List.not_mem_nil _)
    | cons _ _ => simp
  rcases hend : tbl.filter (fun e => keyLe target e.1) ++ tbl
    with _ | ⟨⟨b, bl⟩, er0⟩
  · exfalso
    have hlen0 := congrArg List.length hend
    rw [List.length_append] at hlen0
    simp only [List.length_nil] at hlen0
    omega
  have herlen : tbl.length ≤ er0.length + 1 := by
    have hlen1 := congrArg List.length hend
    rw [List.length_append] at hlen1
    simp only [List.length_cons] at hlen1
    omega
  rw [closest_alg_eq]
  simp only [hrev, hend, List.cons_append]
  rw [DecodingTable.closestLoop]
  rw [if_pos ⟨Or.inl rfl, htot⟩]
  have hup1 : DecodingTable.updateClosest orders target none target alg =
      (some (0, target, alg), 0) := by
    simp [DecodingTable.updateClosest, torusDist_self]
  simp only [if_true, hup1, updateClosest_zero]
  rw [closestLoop_keeps_zero orders target target alg tbl.length
    (sr0 ++ tbl.reverse) er0 _ _ 2 tbl.length (by simp; omega) (by omega)]

/-- C2 (counterexample): a two-register decoding table (orders 7 and 4,
strictly sorted keys, exactly the kind `decoding_table` builds: the two unit
entries with their inverses, plus extra entries closed under inversion) on
which `closest_alg` answers the target `(6, 2)` with the entry achieving
`(6, 0)` at torus-distance 2, although the stored entry achieving `(0, 2)`
is at torus-distance 1: the pruning of the radial scan compares only the
first component's plain distance, so it stops both directions before the
true minimum is examined. -/
theorem closest_alg_not_minimal :
    (DecodingTable.closest_alg
        ⟨[7, 4],
          [([0, 1], ["m1"]), ([0, 2], ["m2"]), ([0, 3], ["m3"]),
           ([1, 0], ["m4"]), ([2, 0], ["m5"]), ([5, 0], ["m6"]),
           ([6, 0], ["m7"])]⟩
        [6, 2] = some ([6, 0], ["m7"])) ∧
    torusDist [6, 0] [6, 2] [7, 4] = 2 ∧
    (([0, 2], ["m2"]) ∈
      [([0, 1], ["m1"]), ([0, 2], ["m2"]), ([0, 3], ["m3"]),
       ([1, 0], ["m4"]), ([2, 0], ["m5"]), ([5, 0], ["m6"]),
       ([6, 0], ["m7"])]) ∧
    torusDist [0, 2] [6, 2] [7, 4] = 1 ∧
    ([([0, 1], ["m1"]), ([0, 2], ["m2"]), ([0, 3], ["m3"]),
      ([1, 0], ["m4"]), ([2, 0], ["m5"]), ([5, 0], ["m6"]),
      ([6, 0], ["m7"])] :
        List (List Nat × List String)).Pairwise
      (fun a b => keyLe a.1 b.1 = true ∧ a.1 ≠ b.1) := by
  refine ⟨by decide, by decide, by decide, by decide, by decide⟩

/-- C2 (amended): `closest_alg` always returns an entry that is stored in
the table, and when the target tuple itself is stored (in a strictly sorted
table whose keys all have one component per register of the target) the
exactly-achieving entry, at torus-distance 0, is returned; but the returned
entry need not minimise the torus-distance sum over all entries once there
are two or more registers (see the counterexample). -/
theorem closest_alg_returns_entry_and_exact_hits (orders : List Nat)
    (tbl : List (List Nat × List String)) (target : List Nat) :
    (∀ r, DecodingTable.closest_alg ⟨orders, tbl⟩ target = some r →
      r ∈ tbl) ∧
    (∀ alg, tbl.Pairwise (fun a b => keyLe a.1 b.1 = true ∧ a.1 ≠ b.1) →
      (∀ e ∈ tbl, e.1.length = target.length) → (target, alg) ∈ tbl →
      DecodingTable.closest_alg ⟨orders, tbl⟩ target = some (target, alg)) :=
  ⟨fun r h => closest_alg_mem orders tbl target r h,
   fun alg hs hl hm => closest_alg_exact orders tbl target alg hs hl hm⟩

/-- Witness for the amended C2 theorem on the counterexample's table, at a
target that is stored. -/
theorem closest_alg_returns_entry_and_exact_hits_witness :
    DecodingTable.closest_alg
      ⟨[7, 4],
        [([0, 1], ["m1"]), ([0, 2], ["m2"]), ([0, 3], ["m3"]),
         ([1, 0], ["m4"]), ([2, 0], ["m5"]), ([5, 0], ["m6"]),
         ([6, 0], ["m7"])]⟩
      [0, 2] = some ([0, 2], ["m2"]) :=
  (closest_alg_returns_entry_and_exact_hits [7, 4]
      [([0, 1], ["m1"]), ([0, 2], ["m2"]), ([0, 3], ["m3"]),
       ([1, 0], ["m4"]), ([2, 0], ["m5"]), ([5, 0], ["m6"]),
       ([6, 0], ["m7"])] [0, 2]).2 ["m2"] (by decide) (by decide) (by decide)


/-- C6: Macro expansion runs at most 100 passes and, when the limit is reached,
fails with a recursion-limit diagnostic.  On the concrete program whose body is
`.define X \x7b $X \x7d` followed by `$X` (the register declaration block binds
register A to a 3x3), the expander performs exactly 100 passes and produces
exactly one diagnostic, whose span (bytes 110 to 112, the `$X` inside the
define body, the most recently changed span) lies on line 7 of the source and
slices to the text `$X`. -/
theorem recursion_limit_single_diagnostic_line7 :
    expandPasses parsedC6 = 100 ∧
    expand parsedC6 =
      some (.error [⟨⟨110, 112⟩, "Recursion limit reached during macro expansion"⟩]) ∧
    lineOf sourceC6 ⟨110, 112⟩ = 7 ∧
    sliceOf sourceC6 ⟨110, 112⟩ = "$X" :=
  ⟨by decide, by decide, by decide, by decide⟩

/-- C5, counterexample: compiling the nested-define program does not produce
three lines of `U`-inverse.  The pipeline yields exactly the Q output
`Puzzles / A: 3x3 / (blank) / 0 | U\x27` — the three spliced `add 1`
instructions are coalesced into one add of 3, which decodes to the single
one-move algorithm — so exactly one line of the output contains the move,
not three. -/
theorem nested_define_not_three_inverse_lines :
    compileC5 = some (.ok "Puzzles\nA: 3x3\n\n0 | U\x27\n") ∧
    linesWith "U\x27" "Puzzles\nA: 3x3\n\n0 | U\x27\n" = 1 ∧
    ¬ linesWith "U\x27" "Puzzles\nA: 3x3\n\n0 | U\x27\n" = 3 :=
  ⟨by decide, by decide, by decide⟩

/-- C5, amended: macro expansion splices one `add A 1` per reference `$X`,
`$Y`, `$Z`; `CoalesceAdds` merges the three adds into a single `AddPuzzle`
of amount 3 on register A; amount 3 decodes to the one-move algorithm
`U\x27` (the inverse generator); and the emitted Q output is exactly
`Puzzles\nA: 3x3\n\n0 | U\x27\n`, the string `tests::test_define`
expects — one algorithm line, not three. -/
theorem nested_define_single_coalesced_add :
    optimizedC5 =
      some [(.instruction
        (.addPuzzle 0 archU [(0, (3, ⟨172, 176⟩))]) 3, ⟨163, 176⟩)] ∧
    compileC5 = some (.ok "Puzzles\nA: 3x3\n\n0 | U\x27\n") :=
  ⟨by decide, by decide⟩


end QterSpec
